import Mathlib

/-!
Verification of the line-staging engine of `asyncgit` (file
`src/sync/staging/stage_tracked.rs`): the public operation `stage_lines`
and its helper `stage_with_intent_to_add`, together with the external
collaborators they use (object store, index, diff provider, selection
resolver), embedded shallowly.  External collaborators that are not part
of the examined source are modelled from the specification's interface
descriptions and are marked as such in their doc comments.
-/

/-- A git-level error coming out of the underlying store (libgit2); we
only keep its message. -/
abbrev GitError := String

/-- The error type of the engine, modelling the crate's `Error` as used
by `stage_lines`: generic messages, verbatim git errors, UTF-8 decode
failures, integer-conversion failures and the resolver's
malformed-selection condition. -/
inductive Error where
  | generic (msg : String)
  | git (e : GitError)
  | fromUtf8
  | tryFromInt
  | malformedSelection
deriving DecidableEq, Repr

/-- Modelled from the spec: a content-addressed object id.  `zero` is the
null id (`Oid::zero()`); a blob id is identified with the byte content it
addresses, reflecting the store's content-addressing and immutability. -/
inductive Oid where
  | zero
  | blob (bytes : List Nat)
deriving DecidableEq, Repr

/-- Modelled from the spec: `readBlob` of the object store.  The null id
addresses no object; a blob id yields its bytes. -/
def findBlob : Oid → Option (List Nat)
  | Oid.zero => none
  | Oid.blob bs => some bs

/-- `IndexEntry` of git2 as used by the source: stat fields, mode, size,
content id, flag words and the path. -/
structure IndexEntry where
  ctime : Nat × Nat
  mtime : Nat × Nat
  dev : Nat
  ino : Nat
  mode : Nat
  uid : Nat
  gid : Nat
  file_size : Nat
  id : Oid
  flags : Nat
  flags_extended : Nat
  path : String
deriving DecidableEq, Repr

/-- `IndexEntryFlag::EXTENDED.bits()` (bit 14 of the flags word). -/
def indexEntryFlagExtended : Nat := 0x4000

/-- `IndexEntryExtendedFlag::INTENT_TO_ADD.bits()` (bit 13 of the
extended flags word). -/
def indexEntryExtendedFlagIntentToAdd : Nat := 0x2000

/-- An entry is in intent-to-add state when its EXTENDED flag bit is set
(so the extended word is meaningful) and the INTENT_TO_ADD extended bit
is set. -/
def intentToAdd (e : IndexEntry) : Bool :=
  (e.flags &&& indexEntryFlagExtended != 0) &&
    (e.flags_extended &&& indexEntryExtendedFlagIntentToAdd != 0)

/-- The repository state visible to `stage_lines`: the last-commit
content of each path and the on-disk index. -/
structure GitState where
  headTree : List (String × List Nat)
  index : List IndexEntry
deriving DecidableEq, Repr

/-- Content of a path in the last commit, if the path exists there. -/
def headGet (st : GitState) (p : String) : Option (List Nat) :=
  (st.headTree.find? (fun e => e.1 == p)).map (fun e => e.2)

/-- `index.get_path(path, 0)`: look up the entry for a path. -/
def indexGet (idx : List IndexEntry) (p : String) : Option IndexEntry :=
  idx.find? (fun e => e.path == p)

/-- `index.add(&entry)`: replace the entry with the same path, or append
the entry if the path is not present. -/
def indexAdd (idx : List IndexEntry) (e : IndexEntry) : List IndexEntry :=
  if idx.any (fun x => x.path == e.path) then
    idx.map (fun x => if x.path == e.path then e else x)
  else idx ++ [e]

/-- Removal of a path's entry from the index. -/
def indexRemove (idx : List IndexEntry) (p : String) : List IndexEntry :=
  idx.filter (fun x => x.path != p)

/-- Modelled from the spec: the index entry a path has when it is reset
to its last-commit version (content id and size from the committed
blob, plain flags). -/
def commitEntry (p : String) (bs : List Nat) : IndexEntry :=
  { ctime := (0, 0), mtime := (0, 0), dev := 0, ino := 0,
    mode := 0o100644, uid := 0, gid := 0,
    file_size := bs.length, id := Oid.blob bs,
    flags := 0, flags_extended := 0, path := p }

/-- Modelled from the spec: `resetPathToCommit` (git2
`reset_default`) — reverts a path's index entry to the last-commit
version, or removes it when the path does not exist in the last
commit. -/
def resetDefault (st : GitState) (p : String) : GitState :=
  match headGet st p with
  | some bs => { st with index := indexAdd st.index (commitEntry p bs) }
  | none => { st with index := indexRemove st.index p }

/-- UTF-8 encoding of one unicode scalar value (arithmetic form of the
standard bit-level definition). -/
def utf8EncodeChar (c : Nat) : List Nat :=
  if c < 0x80 then [c]
  else if c < 0x800 then [0xC0 + c / 64, 0x80 + c % 64]
  else if c < 0x10000 then
    [0xE0 + c / 4096, 0x80 + c / 64 % 64, 0x80 + c % 64]
  else
    [0xF0 + c / 262144, 0x80 + c / 4096 % 64, 0x80 + c / 64 % 64,
     0x80 + c % 64]

/-- UTF-8 encoding of a string (`str::as_bytes`). -/
def utf8Encode (s : String) : List Nat :=
  s.data.flatMap (fun c => utf8EncodeChar c.toNat)

/-- Whether a byte is a UTF-8 continuation byte. -/
def isCont (b : Nat) : Bool := 0x80 ≤ b && b ≤ 0xBF

/-- Code point of a two-byte UTF-8 sequence. -/
def utf8Val2 (b0 b1 : Nat) : Nat := (b0 - 0xC0) * 64 + (b1 - 0x80)

/-- Code point of a three-byte UTF-8 sequence. -/
def utf8Val3 (b0 b1 b2 : Nat) : Nat :=
  (b0 - 0xE0) * 4096 + (b1 - 0x80) * 64 + (b2 - 0x80)

/-- Code point of a four-byte UTF-8 sequence. -/
def utf8Val4 (b0 b1 b2 b3 : Nat) : Nat :=
  (b0 - 0xF0) * 262144 + (b1 - 0x80) * 4096 + (b2 - 0x80) * 64 +
    (b3 - 0x80)

/-- Validity of the continuation byte of a two-byte sequence. -/
def utf8Ok2 (b1 : Nat) : Bool := isCont b1

/-- Validity of a three-byte sequence: continuation bytes, no overlong
form, no surrogate. -/
def utf8Ok3 (b0 b1 b2 : Nat) : Bool :=
  isCont b1 && isCont b2 && decide (0x800 ≤ utf8Val3 b0 b1 b2) &&
    !(decide (0xD800 ≤ utf8Val3 b0 b1 b2) &&
      decide (utf8Val3 b0 b1 b2 ≤ 0xDFFF))

/-- Validity of a four-byte sequence: continuation bytes, no overlong
form, in range. -/
def utf8Ok4 (b0 b1 b2 b3 : Nat) : Bool :=
  isCont b1 && isCont b2 && isCont b3 &&
    decide (0x10000 ≤ utf8Val4 b0 b1 b2 b3) &&
    decide (utf8Val4 b0 b1 b2 b3 < 0x110000)

/-- One step of UTF-8 decoding: the scalar value of the leading
sequence and the remaining bytes, rejecting stray continuation bytes,
truncated sequences, overlong forms, surrogates and values beyond
U+10FFFF, as Rust's `String::from_utf8` does. -/
def utf8DecodeOne (bs : List Nat) : Option (Nat × List Nat) :=
  match bs with
  | [] => none
  | b0 :: rest =>
    if b0 < 0x80 then some (b0, rest)
    else if b0 < 0xC2 then none
    else if b0 ≤ 0xDF then
      match rest with
      | b1 :: rest1 =>
        if utf8Ok2 b1 then some (utf8Val2 b0 b1, rest1) else none
      | [] => none
    else if b0 ≤ 0xEF then
      match rest with
      | b1 :: b2 :: rest2 =>
        if utf8Ok3 b0 b1 b2 then some (utf8Val3 b0 b1 b2, rest2)
        else none
      | _ => none
    else if b0 ≤ 0xF4 then
      match rest with
      | b1 :: b2 :: b3 :: rest3 =>
        if utf8Ok4 b0 b1 b2 b3 then some (utf8Val4 b0 b1 b2 b3, rest3)
        else none
      | _ => none
    else none

/-- Fuel-indexed UTF-8 decoding loop; each step consumes at least one
byte, so a fuel of the byte count suffices. -/
def utf8DecodeLoop : Nat → List Nat → Option (List Char)
  | _, [] => some []
  | 0, _ :: _ => none
  | fuel + 1, b0 :: rest =>
    match utf8DecodeOne (b0 :: rest) with
    | none => none
    | some (v, rest1) =>
      (utf8DecodeLoop fuel rest1).map (fun cs => Char.ofNat v :: cs)

/-- UTF-8 decoding to a character list. -/
def utf8DecodeChars (bs : List Nat) : Option (List Char) :=
  utf8DecodeLoop bs.length bs

/-- UTF-8 decoding to a string (`String::from_utf8`). -/
def utf8Decode (bs : List Nat) : Option String :=
  (utf8DecodeChars bs).map (fun cs => String.mk cs)

/-- Split a character list at newline characters the way Rust's
`str::lines` does: a trailing newline does not produce a final empty
line, and the empty text has no lines. -/
def splitNl : List Char → List (List Char)
  | [] => []
  | c :: cs =>
    if c = '\n' then [] :: splitNl cs
    else
      match splitNl cs with
      | [] => [[c]]
      | l :: ls => (c :: l) :: ls

/-- `String::lines` collected to a list (`indexed_content.lines()`). -/
def linesOf (s : String) : List String :=
  (splitNl s.data).map (fun l => String.mk l)

/-- Modelled from the spec: the resolver's final join — every output
line is emitted followed by a line terminator, so the empty line list
yields the empty content. -/
def joinNl : List (List Char) → List Char
  | [] => []
  | l :: ls => l ++ '\n' :: joinNl ls

/-- Join output lines back into content text. -/
def joinLines (ls : List String) : String :=
  String.mk (joinNl (ls.map (fun s => s.data)))

/-- `DiffLinePosition`: coordinates of one diff line in the old and the
new snapshot. -/
structure DiffLinePosition where
  old_lineno : Option Nat
  new_lineno : Option Nat
deriving DecidableEq, Repr

/-- Origin tag of a diff line. -/
inductive DiffLineType where
  | context
  | add
  | delete
deriving DecidableEq, Repr

/-- One line of a hunk: origin tag, text content and position. -/
structure HunkLine where
  origin : DiffLineType
  content : String
  position : DiffLinePosition
deriving DecidableEq, Repr

/-- A hunk: the 1-based start lines of its region on the old and the new
side, and its ordered lines. -/
structure HunkLines where
  old_start : Nat
  new_start : Nat
  lines : List HunkLine
deriving DecidableEq, Repr

/-- Modelled from the spec: in unstage mode (`is_stage = true`) the
baseline is the new side of the index-vs-commit diff, so lines whose
origin would add content to the baseline are the deletions; in stage
mode they are the additions. -/
def addsToBaseline (is_stage : Bool) (t : DiffLineType) : Bool :=
  if is_stage then t == DiffLineType.delete else t == DiffLineType.add

/-- The hunk-start coordinate on the baseline side: old side in stage
mode, new side in unstage mode. -/
def baseStart (is_stage : Bool) (h : HunkLines) : Nat :=
  if is_stage then h.new_start else h.old_start

/-- Modelled from the spec: walk the lines of one hunk, interleaving
with a cursor over the baseline.  A context line copies the baseline
line and advances the cursor; a line that would add content to the
baseline is emitted iff selected (no cursor movement); a line that
would remove content from the baseline consumes the baseline line and
drops it iff selected, otherwise copies it. -/
def procLines (sel : List DiffLinePosition) (is_stage : Bool)
    (baseline : List String) :
    List HunkLine → Nat → Except Error (List String × Nat)
  | [], c => Except.ok ([], c)
  | l :: ls, c =>
    if l.origin = DiffLineType.context then
      match baseline[c]? with
      | some b =>
        match procLines sel is_stage baseline ls (c + 1) with
        | Except.error e => Except.error e
        | Except.ok (out, c2) => Except.ok (b :: out, c2)
      | none => Except.error (Error.generic "line out of bounds")
    else if addsToBaseline is_stage l.origin then
      if sel.contains l.position then
        match procLines sel is_stage baseline ls c with
        | Except.error e => Except.error e
        | Except.ok (out, c2) => Except.ok (l.content :: out, c2)
      else procLines sel is_stage baseline ls c
    else
      if sel.contains l.position then procLines sel is_stage baseline ls (c + 1)
      else
        match baseline[c]? with
        | some b =>
          match procLines sel is_stage baseline ls (c + 1) with
          | Except.error e => Except.error e
          | Except.ok (out, c2) => Except.ok (b :: out, c2)
        | none => Except.error (Error.generic "line out of bounds")

/-- Modelled from the spec: walk the hunks in order.  Baseline lines
before a hunk's region are copied through unchanged, then the hunk's
lines are processed. -/
def procHunks (sel : List DiffLinePosition) (is_stage : Bool)
    (baseline : List String) :
    List HunkLines → Nat → Except Error (List String × Nat)
  | [], c => Except.ok ([], c)
  | h :: hs, c =>
    let k := baseStart is_stage h - 1 - c
    let pre := (baseline.drop c).take k
    match procLines sel is_stage baseline h.lines (c + k) with
    | Except.error e => Except.error e
    | Except.ok (mid, c2) =>
      match procHunks sel is_stage baseline hs c2 with
      | Except.error e => Except.error e
      | Except.ok (rest, c3) => Except.ok (pre ++ mid ++ rest, c3)

/-- Whether every selected position occurs among the hunks' lines. -/
def selectionCovered (sel : List DiffLinePosition)
    (hunks : List HunkLines) : Bool :=
  sel.all (fun pos =>
    hunks.any (fun h => h.lines.any (fun l => l.position == pos)))

/-- Modelled from the spec: the resolver's output lines — hunks applied
in order, then the remaining baseline lines copied through. -/
def applySelectionCore (sel : List DiffLinePosition)
    (hunks : List HunkLines) (baseline : List String) (is_stage : Bool) :
    Except Error (List String) :=
  match procHunks sel is_stage baseline hunks 0 with
  | Except.error e => Except.error e
  | Except.ok (out, c) => Except.ok (out ++ baseline.drop c)

/-- Modelled from the spec: `applySelection` — the Selection Resolver.
Fails with the malformed-selection condition when a selected position
does not correspond to any line of the supplied hunks; otherwise
produces the new baseline content. -/
def apply_selection (lines : List DiffLinePosition)
    (hunks : List HunkLines) (old_lines : List String)
    (is_stage : Bool) (_reverse : Bool) : Except Error String :=
  if selectionCovered lines hunks then
    match applySelectionCore lines hunks old_lines is_stage with
    | Except.error e => Except.error e
    | Except.ok out => Except.ok (joinLines out)
  else Except.error Error.malformedSelection

/-- Failure injection for the external store: each fallible collaborator
call either succeeds (`none`) or fails with the given git error. -/
structure Faults where
  repoOpen : Option GitError := none
  indexOpen : Option GitError := none
  indexRead : Option GitError := none
  findBlobCall : Option GitError := none
  diff : Option GitError := none
  blobWrite : Option GitError := none
  indexAddCall : Option GitError := none
  indexWrite : Option GitError := none
  reset : Option GitError := none
  bootAdd : Option GitError := none
  bootWrite : Option GitError := none
  bootRead : Option GitError := none
deriving DecidableEq, Repr

/-- The fault assignment under which every store call succeeds. -/
def noFaults : Faults := {}

/-- The `IndexEntry` literal built by `stage_with_intent_to_add`:
zeroed stat fields, mode `0o100644`, zero size, the null id, the
EXTENDED flag bit and the INTENT_TO_ADD extended bit. -/
def bootstrapEntry (file_path : String) : IndexEntry :=
  { ctime := (0, 0), mtime := (0, 0), dev := 0, ino := 0,
    mode := 0o100644, uid := 0, gid := 0, file_size := 0,
    id := Oid.zero, flags := indexEntryFlagExtended,
    flags_extended := indexEntryExtendedFlagIntentToAdd,
    path := file_path }

/-- Modelled from the spec: git2 `index.add_frombuffer(&entry, buf)` —
stores `buf` as a blob and records the entry with its id and size
computed from the buffer. -/
def addFromBuffer (idx : List IndexEntry) (e : IndexEntry)
    (buf : List Nat) : List IndexEntry :=
  indexAdd idx { e with id := Oid.blob buf, file_size := buf.length }

/-- The entry actually persisted for a path by the untracked-file
bootstrap: the bootstrap literal with id and size recomputed from the
empty buffer. -/
def persistedBoot (file_path : String) : IndexEntry :=
  { bootstrapEntry file_path with id := Oid.blob [], file_size := 0 }


/-- The entry `stage_lines` writes for the path: the looked-up entry
with the new blob id, the new byte size and the flags word hard-coded
to 4 (source lines 61-65). -/
def stagedEntry (idx : IndexEntry) (nc : String) : IndexEntry :=
  { idx with id := Oid.blob (utf8Encode nc),
             file_size := (utf8Encode nc).length, flags := 4 }

/-- `stage_with_intent_to_add` from the source: build the intent-to-add
entry, add it from an empty buffer (failure replaced by a generic
message naming the path), write the index, re-read it.  Returns the
result together with the repository state (on-disk index) and the
in-memory index. -/
def stage_with_intent_to_add (f : Faults) (st : GitState)
    (memIndex : List IndexEntry) (file_path : String) :
    Except Error Unit × GitState × List IndexEntry :=
  match f.bootAdd with
  | some _e =>
    (Except.error (Error.generic ("Failed to start tracking file " ++ file_path)),
     st, memIndex)
  | none =>
    match f.bootWrite with
    | some e =>
      (Except.error (Error.git e), st,
       addFromBuffer memIndex (bootstrapEntry file_path) [])
    | none =>
      match f.bootRead with
      | some e =>
        (Except.error (Error.git e),
         { st with index := addFromBuffer memIndex (bootstrapEntry file_path) [] },
         addFromBuffer memIndex (bootstrapEntry file_path) [])
      | none =>
        (Except.ok (),
         { st with index := addFromBuffer memIndex (bootstrapEntry file_path) [] },
         addFromBuffer memIndex (bootstrapEntry file_path) [])

/-- The tail of `stage_lines` once the index entry for the path is in
hand (source lines 46-78): read and decode the entry's blob, obtain the
hunks (supplied by the caller in place of the diff collaborator, which
can itself fail), resolve the selection, write the new blob, update the
entry (new id, checked size, flags hard-coded to 4), write the index,
and finally, when the new content is empty, reset the path to its
last-commit version (failure replaced by a generic message naming the
path).  `st1` is the repository state, `mem1` the in-memory index. -/
def stage_lines_rest (f : Faults) (hunks : List HunkLines)
    (st1 : GitState) (mem1 : List IndexEntry) (idx : IndexEntry)
    (file_path : String) (is_stage : Bool)
    (lines : List DiffLinePosition) : Except Error Unit × GitState :=
  match f.findBlobCall with
  | some e => (Except.error (Error.git e), st1)
  | none =>
  match findBlob idx.id with
  | none => (Except.error (Error.git "object not found"), st1)
  | some bytes =>
  match utf8Decode bytes with
  | none => (Except.error Error.fromUtf8, st1)
  | some indexed_content =>
  match f.diff with
  | some e => (Except.error (Error.git e), st1)
  | none =>
  match apply_selection lines hunks (linesOf indexed_content) is_stage false with
  | Except.error e => (Except.error e, st1)
  | Except.ok new_content =>
  match f.blobWrite with
  | some e => (Except.error (Error.git e), st1)
  | none =>
  if (utf8Encode new_content).length > 4294967295 then
    (Except.error Error.tryFromInt, st1)
  else
  match f.indexAddCall with
  | some e => (Except.error (Error.git e), st1)
  | none =>
  match f.indexWrite with
  | some e => (Except.error (Error.git e), st1)
  | none =>
  if new_content = "" then
    match f.reset with
    | some _e =>
      (Except.error (Error.generic ("Couldn't reset " ++ file_path)),
       { st1 with index := indexAdd mem1 (stagedEntry idx new_content) })
    | none =>
      (Except.ok (),
       resetDefault
         { st1 with index := indexAdd mem1 (stagedEntry idx new_content) }
         file_path)
  else
    (Except.ok (),
     { st1 with index := indexAdd mem1 (stagedEntry idx new_content) })

/-- `stage_lines` from the source: empty selection is a no-op; open the
repository and index and read the index; look up the path's entry,
bootstrapping an intent-to-add entry when absent (a path still missing
afterwards is a generic lookup error); then run the staging tail.
Returns the result and the repository state. -/
def stage_lines (f : Faults) (hunks : List HunkLines) (st : GitState)
    (file_path : String) (is_stage : Bool)
    (lines : List DiffLinePosition) : Except Error Unit × GitState :=
  if lines.isEmpty then (Except.ok (), st) else
  match f.repoOpen with
  | some e => (Except.error (Error.git e), st)
  | none =>
  match f.indexOpen with
  | some e => (Except.error (Error.git e), st)
  | none =>
  match f.indexRead with
  | some e => (Except.error (Error.git e), st)
  | none =>
  match indexGet st.index file_path with
  | some idx => stage_lines_rest f hunks st st.index idx file_path is_stage lines
  | none =>
    match stage_with_intent_to_add f st st.index file_path with
    | (Except.error e, st1, _) => (Except.error e, st1)
    | (Except.ok _, st1, mem1) =>
      match indexGet mem1 file_path with
      | some idx => stage_lines_rest f hunks st1 mem1 idx file_path is_stage lines
      | none =>
        (Except.error (Error.generic ("Couldn't get path " ++ file_path)), st1)

/-- The bytes of the blob currently referenced by a path's index
entry. -/
def entryContentBytes (st : GitState) (p : String) : Option (List Nat) :=
  (indexGet st.index p).bind (fun e => findBlob e.id)

/-- The text baseline `stage_lines` would read for a path: the decoded
blob of its index entry, or the empty text for an untracked path (whose
bootstrap persists the empty blob). -/
def baselineContent (st : GitState) (p : String) : Option String :=
  match indexGet st.index p with
  | some e => (findBlob e.id).bind utf8Decode
  | none => some ""

/-- The committed and indexed file of the concrete C1 scenario:
content `"0\n"` both in the last commit and in the index. -/
def stC1 : GitState :=
  { headTree := [("test.txt", utf8Encode "0\n")],
    index := [commitEntry "test.txt" (utf8Encode "0\n")] }

/-- The working-tree-vs-index hunk of the C1 scenario: working tree
`"0\n1\n2\n3\n"`, one hunk with context `0` and additions `1`, `2`,
`3` at new line numbers 2, 3, 4. -/
def hunksC1 : List HunkLines :=
  [{ old_start := 1, new_start := 1,
     lines := [
       { origin := DiffLineType.context, content := "0",
         position := { old_lineno := some 1, new_lineno := some 1 } },
       { origin := DiffLineType.add, content := "1",
         position := { old_lineno := none, new_lineno := some 2 } },
       { origin := DiffLineType.add, content := "2",
         position := { old_lineno := none, new_lineno := some 3 } },
       { origin := DiffLineType.add, content := "3",
         position := { old_lineno := none, new_lineno := some 4 } }] }]

/-- A repository whose last commit holds `"a\n"` for the path while
the index holds a staged change `"b\n"`; used by the failure and
round-trip counterexamples. -/
def stDel : GitState :=
  { headTree := [("f.txt", utf8Encode "a\n")],
    index := [commitEntry "f.txt" (utf8Encode "b\n")] }

/-- The working-tree-vs-index hunk after deleting the file's only line
in the working tree. -/
def hunksDel : List HunkLines :=
  [{ old_start := 1, new_start := 0,
     lines := [{ origin := DiffLineType.delete, content := "b",
                 position := { old_lineno := some 1, new_lineno := none } }] }]

/-- The selection picking that deletion. -/
def selDel : List DiffLinePosition :=
  [{ old_lineno := some 1, new_lineno := none }]

/-- A fault assignment where only the final reset fails. -/
def faultReset : Faults := { reset := some "disk full" }

/-- A fault assignment where only the index write fails. -/
def faultWrite : Faults := { indexWrite := some "boom" }

/-- A fault assignment where opening the repository fails. -/
def faultRepo : Faults := { repoOpen := some "io error" }

/-- The selection of the C1 scenario. -/
def selC1 : List DiffLinePosition :=
  [{ old_lineno := none, new_lineno := some 2 }]

/-- The state after the C1 staging: the entry holds `"0\n1\n"`. -/
def stC1After : GitState :=
  { headTree := [("test.txt", utf8Encode "0\n")],
    index := [stagedEntry (commitEntry "test.txt" (utf8Encode "0\n"))
      "0\n1\n"] }

/-- The state after staging the whole-file deletion over `stDel`: the
computed content is empty, so the entry was reset to the last-commit
version `"a\n"`. -/
def stDelAfter : GitState :=
  { headTree := [("f.txt", utf8Encode "a\n")],
    index := [commitEntry "f.txt" (utf8Encode "a\n")] }

/-- A repository with no commit and an empty index, for the untracked
bootstrap scenario. -/
def stNew : GitState := { headTree := [], index := [] }

/-- The working-tree-vs-index hunk of a brand-new one-line file. -/
def hunksNew : List HunkLines :=
  [{ old_start := 0, new_start := 1,
     lines := [{ origin := DiffLineType.add, content := "hello",
                 position := { old_lineno := none, new_lineno := some 1 } }] }]

/-- The selection picking that new line. -/
def selNew : List DiffLinePosition :=
  [{ old_lineno := none, new_lineno := some 1 }]

/-- The state after staging the new line of the untracked file. -/
def stNewAfter : GitState :=
  { headTree := [],
    index := [stagedEntry (persistedBoot "new.txt") "hello\n"] }

/-- A repository whose index entry references a blob that is not valid
UTF-8 (the lone byte 0xFF). -/
def stBad : GitState :=
  { headTree := [], index := [commitEntry "bad.txt" [255]] }

/-- Number of lines of a hunk that consume a line of the stage-mode
baseline (context and deletion lines). -/
def consumedCount : List HunkLine → Nat
  | [] => 0
  | l :: ls =>
    (if l.origin = DiffLineType.add then 0 else 1) + consumedCount ls

/-- Number of lines a stage-mode walk of these hunk lines emits:
context lines, selected additions and unselected deletions. -/
def producedCount (sel : List DiffLinePosition) : List HunkLine → Nat
  | [] => 0
  | l :: ls =>
    (match l.origin with
     | DiffLineType.context => 1
     | DiffLineType.add => if sel.contains l.position then 1 else 0
     | DiffLineType.delete => if sel.contains l.position then 0 else 1) +
    producedCount sel ls

/-- The image of one stage-mode hunk line in the inverse (unstage-mode)
hunk: context lines stay context; a selected addition becomes a line to
remove again; an unselected addition was never staged and disappears; a
selected deletion becomes a line to restore; an unselected deletion was
kept and becomes context.  Positions are preserved, so the selection
itself is unchanged. -/
def invLine (sel : List DiffLinePosition) (l : HunkLine) :
    Option HunkLine :=
  match l.origin with
  | DiffLineType.context => some l
  | DiffLineType.add =>
    if sel.contains l.position then some l else none
  | DiffLineType.delete =>
    if sel.contains l.position then some l
    else some { l with origin := DiffLineType.context }

/-- The index-vs-commit hunks corresponding to a staged selection: each
stage-mode hunk is re-coordinatized onto the staged content.  `c` is
the number of baseline lines consumed and `cp` the number of output
lines emitted before this hunk. -/
def invHunks (sel : List DiffLinePosition) :
    List HunkLines → Nat → Nat → List HunkLines
  | [], _, _ => []
  | h :: hs, c, cp =>
    { old_start := h.old_start,
      new_start := h.old_start + cp - c,
      lines := h.lines.filterMap (invLine sel) } ::
    invHunks sel hs (h.old_start - 1 + consumedCount h.lines)
      (cp + (h.old_start - 1 - c) + producedCount sel h.lines)

/-- Whether hunk lines fit the stage-mode baseline from cursor `c`:
deletion lines must carry exactly the baseline line they delete. -/
def linesFit (baseline : List String) : List HunkLine → Nat → Bool
  | [], _ => true
  | l :: ls, c =>
    match l.origin with
    | DiffLineType.context => linesFit baseline ls (c + 1)
    | DiffLineType.add => linesFit baseline ls c
    | DiffLineType.delete =>
      (baseline[c]? == some l.content) && linesFit baseline ls (c + 1)

/-- Whether a hunk list describes a well-formed stage-mode diff of the
baseline: hunks in order, regions within the baseline, lines
fitting. -/
def hunksFit (baseline : List String) : List HunkLines → Nat → Bool
  | [], _ => true
  | h :: hs, c =>
    (decide (c + 1 ≤ h.old_start)) &&
    (decide (h.old_start - 1 ≤ baseline.length)) &&
    linesFit baseline h.lines (h.old_start - 1) &&
    hunksFit baseline hs (h.old_start - 1 + consumedCount h.lines)

/-! ## Helper lemmas about the index model -/

theorem indexGet_path {idx : List IndexEntry} {p : String} {e : IndexEntry}
    (h : indexGet idx p = some e) : e.path = p := by
  have hp := List.find?_some h
  simpa using hp

theorem find?_map_replace (idx : List IndexEntry) (e : IndexEntry)
    (h : idx.any (fun x => x.path == e.path) = true) :
    (idx.map (fun x => if x.path == e.path then e else x)).find?
      (fun x => x.path == e.path) = some e := by
  induction idx with
  | nil => simp at h
  | cons x xs ih =>
    by_cases hx : x.path = e.path
    · simp [List.find?, hx]
    · have hx' : (x.path == e.path) = false := by simp [hx]
      have h' : xs.any (fun x => x.path == e.path) = true := by
        simpa [List.any_cons, hx'] using h
      simpa [List.find?, hx'] using ih h'

theorem find?_append_self (idx : List IndexEntry) (e : IndexEntry)
    (h : idx.any (fun x => x.path == e.path) = false) :
    (idx ++ [e]).find? (fun x => x.path == e.path) = some e := by
  induction idx with
  | nil => simp [List.find?]
  | cons x xs ih =>
    have hx : (x.path == e.path) = false := by
      by_contra hc
      have : (x.path == e.path) = true := by
        revert hc; cases x.path == e.path <;> simp
      simp [List.any_cons, this] at h
    have h' : xs.any (fun x => x.path == e.path) = false := by
      simpa [List.any_cons, hx] using h
    simpa [List.find?, hx] using ih h'

theorem indexGet_indexAdd_self (idx : List IndexEntry) (e : IndexEntry) :
    indexGet (indexAdd idx e) e.path = some e := by
  unfold indexGet indexAdd
  by_cases h : idx.any (fun x => x.path == e.path) = true
  · simpa [h] using find?_map_replace idx e h
  · have h' : idx.any (fun x => x.path == e.path) = false := by
      revert h; cases idx.any (fun x => x.path == e.path) <;> simp
    simpa [h'] using find?_append_self idx e h'

theorem indexGet_indexRemove_self (idx : List IndexEntry) (p : String) :
    indexGet (indexRemove idx p) p = none := by
  unfold indexGet indexRemove
  induction idx with
  | nil => simp
  | cons x xs ih =>
    by_cases hx : x.path = p
    · simpa [List.filter, hx] using ih
    · have hx' : (x.path == p) = false := by simp [hx]
      simp only [List.filter, hx', bne]
      simpa [List.find?, hx'] using ih

theorem addFromBuffer_boot (idx : List IndexEntry) (p : String) :
    addFromBuffer idx (bootstrapEntry p) [] = indexAdd idx (persistedBoot p) :=
  rfl

theorem indexGet_indexAdd_persistedBoot (idx : List IndexEntry) (p : String) :
    indexGet (indexAdd idx (persistedBoot p)) p = some (persistedBoot p) := by
  have := indexGet_indexAdd_self idx (persistedBoot p)
  simpa [persistedBoot, bootstrapEntry] using this

/-! ## Claim theorems: the simple ones -/

/-- C5: calling `stage_lines` with an empty selection returns success
and performs no side effects — the returned repository state (its index
in particular) is the input state, byte for byte, for every path,
direction flag and fault assignment. -/
theorem stage_lines_empty_selection_noop (f : Faults)
    (hunks : List HunkLines) (st : GitState) (p : String) (is_s : Bool) :
    stage_lines f hunks st p is_s [] = (Except.ok (), st) := rfl

/-- C1: in the concrete scenario (committed and indexed `"0\n"`,
working tree `"0\n1\n2\n3\n"`), staging the single selection
`(old_lineno = none, new_lineno = 2)` in stage mode succeeds and leaves
the index entry's content for the path equal to `"0\n1\n"`. -/
theorem stage_lines_c1_scenario :
    (stage_lines noFaults hunksC1 stC1 "test.txt" false
      [{ old_lineno := none, new_lineno := some 2 }]).1 = Except.ok () ∧
    entryContentBytes
      (stage_lines noFaults hunksC1 stC1 "test.txt" false
        [{ old_lineno := none, new_lineno := some 2 }]).2 "test.txt" =
      some (utf8Encode "0\n1\n") := by
  constructor
  · rfl
  · rfl

/-- C8: when the blob referenced by the file's index entry is not valid
UTF-8 text, `stage_lines` fails with the decode error, surfaced to the
caller unchanged, and the repository state is untouched. -/
theorem stage_lines_decode_failure (f : Faults) (hunks : List HunkLines)
    (st : GitState) (p : String) (is_s : Bool)
    (sel : List DiffLinePosition) (idx : IndexEntry) (bs : List Nat)
    (hne : sel ≠ [])
    (h1 : f.repoOpen = none) (h2 : f.indexOpen = none)
    (h3 : f.indexRead = none) (h4 : f.findBlobCall = none)
    (hidx : indexGet st.index p = some idx)
    (hblob : findBlob idx.id = some bs)
    (hdec : utf8Decode bs = none) :
    stage_lines f hunks st p is_s sel = (Except.error Error.fromUtf8, st) := by
  have hemp : sel.isEmpty = false := by
    cases sel with
    | nil => exact absurd rfl hne
    | cons a l => rfl
  rw [stage_lines, hemp]
  simp only [Bool.false_eq_true, if_false]
  rw [h1, h2, h3, hidx]
  simp only [stage_lines_rest, h4, hblob, hdec]

/-! ## Inversion of a successful run -/

/-- Anatomy of every successful run of the staging tail: the entry's
blob decodes to the baseline text, the resolver produces the new
content, whose encoded size fits in 32 bits, and the final state is the
written index — with the path reset to its last-commit version when
the new content is empty. -/
theorem stage_lines_rest_ok_inversion (f : Faults)
    (hunks : List HunkLines) (st1 : GitState) (mem1 : List IndexEntry)
    (idx : IndexEntry) (p : String) (is_s : Bool)
    (sel : List DiffLinePosition) (st' : GitState)
    (h : stage_lines_rest f hunks st1 mem1 idx p is_s sel = (Except.ok (), st')) :
    ∃ (content nc : String),
      (findBlob idx.id).bind utf8Decode = some content ∧
      apply_selection sel hunks (linesOf content) is_s false = Except.ok nc ∧
      (utf8Encode nc).length ≤ 4294967295 ∧
      (if nc = "" then
        st' = resetDefault
          { st1 with index := indexAdd mem1 (stagedEntry idx nc) } p
       else
        st' = { st1 with index := indexAdd mem1 (stagedEntry idx nc) }) := by
  unfold stage_lines_rest at h
  rcases hfc : f.findBlobCall with _ | e
  case some => simp [hfc] at h
  simp only [hfc] at h
  rcases hfb : findBlob idx.id with _ | bytes
  case none => simp [hfb] at h
  simp only [hfb] at h
  rcases hdec : utf8Decode bytes with _ | content
  case none => simp [hdec] at h
  simp only [hdec] at h
  rcases hdf : f.diff with _ | e
  case some => simp [hdf] at h
  simp only [hdf] at h
  rcases happ : apply_selection sel hunks (linesOf content) is_s false
    with e | nc
  case error => simp [happ] at h
  simp only [happ] at h
  rcases hbw : f.blobWrite with _ | e
  case some => simp [hbw] at h
  simp only [hbw] at h
  by_cases hsize : (utf8Encode nc).length > 4294967295
  case pos => rw [if_pos hsize] at h; simp at h
  rw [if_neg hsize] at h
  rcases hia : f.indexAddCall with _ | e
  on_goal 2 => simp [hia] at h
  simp only [hia] at h
  rcases hiw : f.indexWrite with _ | e
  on_goal 2 => simp [hiw] at h
  simp only [hiw] at h
  refine ⟨content, nc, by simp [hfb, hdec], happ, by omega, ?_⟩
  by_cases hnc : nc = ""
  · rw [if_pos hnc] at h ⊢
    rcases hr : f.reset with _ | e
    on_goal 2 => simp [hr] at h
    simp only [hr] at h
    simp only [Prod.mk.injEq] at h
    exact h.2.symm
  · rw [if_neg hnc] at h ⊢
    simp only [Prod.mk.injEq] at h
    exact h.2.symm

/-- Anatomy of every successful `stage_lines` run with a non-empty
selection: the entry is found (or the untracked bootstrap persists the
intent-to-add entry and the empty blob), its blob decodes to the
baseline text, the resolver produces the new content, whose encoded
size fits in 32 bits, and the final state is the written index — with
the path reset to its last-commit version when the new content is
empty. -/
theorem stage_lines_ok_inversion (f : Faults) (hunks : List HunkLines)
    (st : GitState) (p : String) (is_s : Bool)
    (sel : List DiffLinePosition) (st' : GitState)
    (hne : sel ≠ [])
    (h : stage_lines f hunks st p is_s sel = (Except.ok (), st')) :
    ∃ (st1 : GitState) (mem1 : List IndexEntry) (idx : IndexEntry)
      (content nc : String),
      ((indexGet st.index p = some idx ∧ st1 = st ∧ mem1 = st.index) ∨
       (indexGet st.index p = none ∧
        f.bootAdd = none ∧ f.bootWrite = none ∧ f.bootRead = none ∧
        mem1 = indexAdd st.index (persistedBoot p) ∧
        st1 = { st with index := mem1 } ∧ idx = persistedBoot p)) ∧
      st1.headTree = st.headTree ∧
      (findBlob idx.id).bind utf8Decode = some content ∧
      apply_selection sel hunks (linesOf content) is_s false =
        Except.ok nc ∧
      (utf8Encode nc).length ≤ 4294967295 ∧
      (if nc = "" then
        st' = resetDefault
          { st1 with index := indexAdd mem1 (stagedEntry idx nc) } p
       else
        st' = { st1 with index := indexAdd mem1 (stagedEntry idx nc) }) := by
  have hemp : sel.isEmpty = false := by
    cases sel with
    | nil => exact absurd rfl hne
    | cons a l => rfl
  rw [stage_lines, hemp] at h
  simp only [Bool.false_eq_true, if_false] at h
  rcases hro : f.repoOpen with _ | e
  case some => simp [hro] at h
  simp only [hro] at h
  rcases hio : f.indexOpen with _ | e
  case some => simp [hio] at h
  simp only [hio] at h
  rcases hir : f.indexRead with _ | e
  case some => simp [hir] at h
  simp only [hir] at h
  rcases hig : indexGet st.index p with _ | idx0
  · -- untracked path: the bootstrap must have succeeded
    simp only [hig] at h
    unfold stage_with_intent_to_add at h
    rcases hba : f.bootAdd with _ | e
    case some => simp [hba] at h
    simp only [hba] at h
    rcases hbw : f.bootWrite with _ | e
    case some => simp [hbw] at h
    simp only [hbw] at h
    rcases hbr : f.bootRead with _ | e
    case some => simp [hbr] at h
    simp only [hbr] at h
    rw [addFromBuffer_boot] at h
    simp only [indexGet_indexAdd_persistedBoot] at h
    obtain ⟨content, nc, h1, h2, h3, h4⟩ :=
      stage_lines_rest_ok_inversion _ _ _ _ _ _ _ _ _ h
    exact ⟨{ st with index := indexAdd st.index (persistedBoot p) },
      indexAdd st.index (persistedBoot p), persistedBoot p, content, nc,
      Or.inr ⟨rfl, rfl, rfl, rfl, rfl, rfl, rfl⟩, rfl, h1, h2, h3, h4⟩
  · simp only [hig] at h
    obtain ⟨content, nc, h1, h2, h3, h4⟩ :=
      stage_lines_rest_ok_inversion _ _ _ _ _ _ _ _ _ h
    exact ⟨st, st.index, idx0, content, nc, Or.inl ⟨rfl, rfl, rfl⟩,
      rfl, h1, h2, h3, h4⟩

/-! ## Further helper lemmas -/

theorem indexGet_indexAdd_of_path (idx : List IndexEntry) (e : IndexEntry)
    (p : String) (h : e.path = p) : indexGet (indexAdd idx e) p = some e := by
  subst h; exact indexGet_indexAdd_self idx e

theorem headGet_set_index (st : GitState) (idx : List IndexEntry)
    (p : String) : headGet { st with index := idx } p = headGet st p := rfl

theorem headGet_congr {st1 st2 : GitState} (p : String)
    (h : st1.headTree = st2.headTree) : headGet st1 p = headGet st2 p := by
  unfold headGet; rw [h]

theorem content_eq_baseline {st : GitState} {p : String} {idx : IndexEntry}
    {content c : String}
    (hig : indexGet st.index p = some idx ∨
      (indexGet st.index p = none ∧ idx = persistedBoot p))
    (hdecc : (findBlob idx.id).bind utf8Decode = some content)
    (hbase : baselineContent st p = some c) : content = c := by
  rcases hig with hig | ⟨hig, hidx⟩
  · simp only [baselineContent, hig] at hbase
    rw [hdecc] at hbase
    exact Option.some.inj hbase
  · simp only [baselineContent, hig] at hbase
    have hid : (findBlob idx.id).bind utf8Decode = some "" := by
      rw [hidx]; rfl
    rw [hid] at hdecc
    have h1 : content = "" := (Option.some.inj hdecc).symm
    exact h1.trans (Option.some.inj hbase)

theorem intentToAdd_bootstrapEntry (p : String) :
    intentToAdd (bootstrapEntry p) = true := by
  simp only [intentToAdd, bootstrapEntry, indexEntryFlagExtended,
    indexEntryExtendedFlagIntentToAdd]
  decide

theorem intentToAdd_persistedBoot (p : String) :
    intentToAdd (persistedBoot p) = true := by
  simp only [intentToAdd, persistedBoot, bootstrapEntry,
    indexEntryFlagExtended, indexEntryExtendedFlagIntentToAdd]
  decide

/-! ## Claim theorems: C3, C4, C6, C10 -/

/-- C3: whenever a `stage_lines` invocation computes an empty new
content and completes successfully, the file's index entry afterwards
equals the last-commit version of the path, or is absent when the path
does not exist in the last commit. -/
theorem stage_lines_empty_result_reset (f : Faults)
    (hunks : List HunkLines) (st : GitState) (p : String) (is_s : Bool)
    (sel : List DiffLinePosition) (st' : GitState) (c : String)
    (hne : sel ≠ [])
    (hbase : baselineContent st p = some c)
    (happ : apply_selection sel hunks (linesOf c) is_s false =
      Except.ok "")
    (h : stage_lines f hunks st p is_s sel = (Except.ok (), st')) :
    indexGet st'.index p = (headGet st p).map (commitEntry p) := by
  obtain ⟨st1, mem1, idx, content, nc, hcase, hhead, hdecc, happ', hsz, hfin⟩ :=
    stage_lines_ok_inversion f hunks st p is_s sel st' hne h
  have hceq : content = c := by
    refine content_eq_baseline ?_ hdecc hbase
    rcases hcase with ⟨h1, _, _⟩ | ⟨h1, _, _, _, _, _, h2⟩
    · exact Or.inl h1
    · exact Or.inr ⟨h1, h2⟩
  have hnceq : nc = "" := by
    rw [hceq, happ] at happ'
    exact (Except.ok.inj happ').symm
  subst hnceq
  rw [if_pos rfl] at hfin
  rw [hfin]
  unfold resetDefault
  have hhg : headGet { st1 with index := indexAdd mem1 (stagedEntry idx "") } p =
      headGet st p := by
    rw [headGet_set_index]
    exact headGet_congr p hhead
  rcases hhd : headGet st p with _ | bs
  · rw [hhg, hhd]
    simpa using indexGet_indexRemove_self (indexAdd mem1 (stagedEntry idx "")) p
  · rw [hhg, hhd]
    have := indexGet_indexAdd_of_path
      (indexAdd mem1 (stagedEntry idx "")) (commitEntry p bs) p rfl
    simpa using this

/-- C4: staging a non-empty selection of a path with no index entry
first constructs the bootstrap entry (zero size, null id,
intent-to-add), persists it through `stage_with_intent_to_add` (whose
stored entry holds the empty blob and still carries the intent-to-add
flags), and the final index entry's content is the Selection Resolver's
output, not the working-tree content. -/
theorem stage_lines_untracked_bootstrap (f : Faults)
    (hunks : List HunkLines) (st : GitState) (p : String) (is_s : Bool)
    (sel : List DiffLinePosition) (st' : GitState) (nc : String)
    (hne : sel ≠ [])
    (hnone : indexGet st.index p = none)
    (happ : apply_selection sel hunks (linesOf "") is_s false =
      Except.ok nc)
    (hnemp : nc ≠ "")
    (h : stage_lines f hunks st p is_s sel = (Except.ok (), st')) :
    (bootstrapEntry p).file_size = 0 ∧
    (bootstrapEntry p).id = Oid.zero ∧
    intentToAdd (bootstrapEntry p) = true ∧
    stage_with_intent_to_add f st st.index p =
      (Except.ok (),
       { st with index := indexAdd st.index (persistedBoot p) },
       indexAdd st.index (persistedBoot p)) ∧
    intentToAdd (persistedBoot p) = true ∧
    entryContentBytes st' p = some (utf8Encode nc) := by
  obtain ⟨st1, mem1, idx, content, nc', hcase, hhead, hdecc, happ', hsz, hfin⟩ :=
    stage_lines_ok_inversion f hunks st p is_s sel st' hne h
  rcases hcase with ⟨h1, _, _⟩ | ⟨_, hba, hbw, hbr, hm, hs1, hidx⟩
  · rw [h1] at hnone; exact absurd hnone (by simp)
  have hceq : content = "" := by
    have hid : (findBlob idx.id).bind utf8Decode = some "" := by
      rw [hidx]; rfl
    rw [hid] at hdecc
    exact (Option.some.inj hdecc).symm
  have hnceq : nc' = nc := by
    rw [hceq] at happ'
    rw [happ] at happ'
    exact (Except.ok.inj happ').symm
  rw [hnceq] at hfin
  rw [if_neg hnemp] at hfin
  refine ⟨rfl, rfl, intentToAdd_bootstrapEntry p, ?_,
    intentToAdd_persistedBoot p, ?_⟩
  · unfold stage_with_intent_to_add
    rw [hba, hbw, hbr, addFromBuffer_boot]
  · rw [hfin]
    unfold entryContentBytes
    have hpath : (stagedEntry idx nc).path = p := by
      rw [hidx]; rfl
    have := indexGet_indexAdd_of_path mem1 (stagedEntry idx nc) p hpath
    simp only [this]
    rfl

/-- C6: after every successful `stage_lines` run with a non-empty
selection and non-empty resulting content, the path's index entry in
the persisted index references the newly written blob, has the new
content's byte length as its size, carries the hard-coded flags word 4,
and is not an intent-to-add entry. -/
theorem stage_lines_writes_entry (f : Faults) (hunks : List HunkLines)
    (st : GitState) (p : String) (is_s : Bool)
    (sel : List DiffLinePosition) (st' : GitState) (c nc : String)
    (hne : sel ≠ [])
    (hbase : baselineContent st p = some c)
    (happ : apply_selection sel hunks (linesOf c) is_s false =
      Except.ok nc)
    (hnemp : nc ≠ "")
    (h : stage_lines f hunks st p is_s sel = (Except.ok (), st')) :
    ∃ e : IndexEntry,
      indexGet st'.index p = some e ∧
      e.id = Oid.blob (utf8Encode nc) ∧
      e.file_size = (utf8Encode nc).length ∧
      e.flags = 4 ∧
      intentToAdd e = false := by
  obtain ⟨st1, mem1, idx, content, nc', hcase, hhead, hdecc, happ', hsz, hfin⟩ :=
    stage_lines_ok_inversion f hunks st p is_s sel st' hne h
  have hceq : content = c := by
    refine content_eq_baseline ?_ hdecc hbase
    rcases hcase with ⟨h1, _, _⟩ | ⟨h1, _, _, _, _, _, h2⟩
    · exact Or.inl h1
    · exact Or.inr ⟨h1, h2⟩
  have hnceq : nc' = nc := by
    rw [hceq, happ] at happ'
    exact (Except.ok.inj happ').symm
  rw [hnceq] at hfin
  rw [if_neg hnemp] at hfin
  have hpath : (stagedEntry idx nc).path = p := by
    rcases hcase with ⟨h1, _, _⟩ | ⟨_, _, _, _, _, _, h2⟩
    · simpa [stagedEntry] using indexGet_path h1
    · rw [h2]; rfl
  refine ⟨stagedEntry idx nc, ?_, rfl, rfl, rfl, ?_⟩
  · rw [hfin]
    exact indexGet_indexAdd_of_path mem1 (stagedEntry idx nc) p hpath
  · have h4 : (4 &&& indexEntryFlagExtended) = 0 := by decide
    simp [intentToAdd, stagedEntry, h4]

/-- C10: the size conversion of the new content is checked — a content
of more than 2^32 - 1 bytes makes the whole operation fail — and on
success with non-empty content the stored entry's size is exactly the
new content's byte length. -/
theorem stage_lines_size_checked (f : Faults) (hunks : List HunkLines)
    (st : GitState) (p : String) (is_s : Bool)
    (sel : List DiffLinePosition) (c nc : String)
    (hne : sel ≠ [])
    (hbase : baselineContent st p = some c)
    (happ : apply_selection sel hunks (linesOf c) is_s false =
      Except.ok nc)
    (hnemp : nc ≠ "") :
    ((utf8Encode nc).length > 4294967295 →
      ∀ st', stage_lines f hunks st p is_s sel ≠ (Except.ok (), st')) ∧
    (∀ st', stage_lines f hunks st p is_s sel = (Except.ok (), st') →
      ∃ e : IndexEntry,
        indexGet st'.index p = some e ∧
        e.file_size = (utf8Encode nc).length ∧
        (utf8Encode nc).length ≤ 4294967295) := by
  constructor
  · intro hbig st' h
    obtain ⟨st1, mem1, idx, content, nc', hcase, hhead, hdecc, happ', hsz, hfin⟩ :=
      stage_lines_ok_inversion f hunks st p is_s sel st' hne h
    have hceq : content = c := by
      refine content_eq_baseline ?_ hdecc hbase
      rcases hcase with ⟨h1, _, _⟩ | ⟨h1, _, _, _, _, _, h2⟩
      · exact Or.inl h1
      · exact Or.inr ⟨h1, h2⟩
    have hnceq : nc' = nc := by
      rw [hceq, happ] at happ'
      exact (Except.ok.inj happ').symm
    rw [hnceq] at hsz
    omega
  · intro st' h
    obtain ⟨e, he, _, hsize, _, _⟩ :=
      stage_lines_writes_entry f hunks st p is_s sel st' c nc hne hbase
        happ hnemp h
    refine ⟨e, he, hsize, ?_⟩
    obtain ⟨st1, mem1, idx, content, nc', hcase, hhead, hdecc, happ', hsz, hfin⟩ :=
      stage_lines_ok_inversion f hunks st p is_s sel st' hne h
    have hceq : content = c := by
      refine content_eq_baseline ?_ hdecc hbase
      rcases hcase with ⟨h1, _, _⟩ | ⟨h1, _, _, _, _, _, h2⟩
      · exact Or.inl h1
      · exact Or.inr ⟨h1, h2⟩
    have hnceq : nc' = nc := by
      rw [hceq, happ] at happ'
      exact (Except.ok.inj happ').symm
    rw [hnceq] at hsz
    exact hsz

/-! ## Error-path analysis -/

theorem map_replace_noop (idx : List IndexEntry) (b : IndexEntry)
    (h : idx.any (fun x => x.path == b.path) = false) :
    idx.map (fun x => if x.path == b.path then b else x) = idx := by
  induction idx with
  | nil => rfl
  | cons x xs ih =>
    have hx : (x.path == b.path) = false := by
      by_contra hc
      have : (x.path == b.path) = true := by
        revert hc; cases x.path == b.path <;> simp
      simp [List.any_cons, this] at h
    have h' : xs.any (fun x => x.path == b.path) = false := by
      simpa [List.any_cons, hx] using h
    simp only [List.map_cons, hx, Bool.false_eq_true, if_false]
    rw [ih h']

theorem indexAdd_indexAdd_same_path (idx : List IndexEntry)
    (a b : IndexEntry) (h : a.path = b.path) :
    indexAdd (indexAdd idx a) b = indexAdd idx b := by
  unfold indexAdd
  have hpred : (fun (x : IndexEntry) => x.path == b.path) =
      (fun x => x.path == a.path) := by
    funext x; rw [h]
  by_cases h1 : idx.any (fun x => x.path == a.path) = true
  · rw [if_pos h1]
    have h2 : (idx.map (fun x => if x.path == a.path then a else x)).any
        (fun x => x.path == b.path) = true := by
      rw [List.any_map]
      rw [List.any_eq_true] at h1 ⊢
      obtain ⟨x, hx, hpx⟩ := h1
      refine ⟨x, hx, ?_⟩
      simp only [Function.comp_apply, hpx, if_true]
      simp [h]
    rw [if_pos h2, List.map_map, hpred, if_pos h1]
    have hfun : ((fun x => if x.path == b.path then b else x) ∘
        (fun x => if x.path == a.path then a else x)) =
        (fun (x : IndexEntry) => if x.path == a.path then b else x) := by
      funext x
      by_cases hx : x.path = a.path
      · simp [hx, h]
      · have hxb : ¬ x.path = b.path := by rw [← h]; exact hx
        simp [hx, hxb]
    rw [hfun]
    have hsame : (fun (x : IndexEntry) => if (x.path == a.path) = true
        then b else x) =
        (fun x => if (x.path == b.path) = true then b else x) := by
      funext x; rw [h]
    rw [hsame]
  · have h1' : idx.any (fun x => x.path == a.path) = false := by
      revert h1; cases idx.any (fun x => x.path == a.path) <;> simp
    rw [if_neg h1]
    have h2 : (idx ++ [a]).any (fun x => x.path == b.path) = true := by
      rw [List.any_append]
      have : a.path == b.path := by simp [h]
      simp [this]
    rw [if_pos h2, List.map_append]
    have h3 : idx.map (fun x => if x.path == b.path then b else x) = idx := by
      apply map_replace_noop
      rw [hpred]; exact h1'
    have h4 : [a].map (fun x => if x.path == b.path then b else x) = [b] := by
      simp [h]
    rw [h3, h4, hpred, if_neg (by rw [h1']; simp)]

/-- The only error the hunk-line walk produces is the out-of-bounds
condition. -/
theorem procLines_error_shape (sel : List DiffLinePosition) (isS : Bool)
    (baseline : List String) (ls : List HunkLine) (c : Nat) (e : Error)
    (h : procLines sel isS baseline ls c = Except.error e) :
    e = Error.generic "line out of bounds" := by
  induction ls generalizing c e with
  | nil => simp [procLines] at h
  | cons l ls ih =>
    unfold procLines at h
    by_cases h1 : l.origin = DiffLineType.context
    · rw [if_pos h1] at h
      rcases hb : baseline[c]? with _ | b
      · simp only [hb] at h
        exact (Except.error.inj h).symm
      · simp only [hb] at h
        rcases hr : procLines sel isS baseline ls (c + 1) with e2 | ok2
        · simp only [hr] at h
          exact (Except.error.inj h).symm.trans (ih (c + 1) e2 hr)
        · simp only [hr] at h
          simp at h
    · rw [if_neg h1] at h
      by_cases h2 : addsToBaseline isS l.origin = true
      · rw [if_pos h2] at h
        by_cases h3 : sel.contains l.position = true
        · rw [if_pos h3] at h
          rcases hr : procLines sel isS baseline ls c with e2 | ok2
          · simp only [hr] at h
            exact (Except.error.inj h).symm.trans (ih c e2 hr)
          · simp only [hr] at h
            simp at h
        · rw [if_neg h3] at h
          exact ih c e h
      · rw [if_neg h2] at h
        by_cases h3 : sel.contains l.position = true
        · rw [if_pos h3] at h
          exact ih (c + 1) e h
        · rw [if_neg h3] at h
          rcases hb : baseline[c]? with _ | b
          · simp only [hb] at h
            exact (Except.error.inj h).symm
          · simp only [hb] at h
            rcases hr : procLines sel isS baseline ls (c + 1) with e2 | ok2
            · simp only [hr] at h
              exact (Except.error.inj h).symm.trans (ih (c + 1) e2 hr)
            · simp only [hr] at h
              simp at h

/-- The only error the hunk walk produces is the out-of-bounds
condition. -/
theorem procHunks_error_shape (sel : List DiffLinePosition) (isS : Bool)
    (baseline : List String) (hs : List HunkLines) (c : Nat) (e : Error)
    (h : procHunks sel isS baseline hs c = Except.error e) :
    e = Error.generic "line out of bounds" := by
  induction hs generalizing c e with
  | nil => simp [procHunks] at h
  | cons hk hs ih =>
    unfold procHunks at h
    rcases hl : procLines sel isS baseline hk.lines
        (c + (baseStart isS hk - 1 - c)) with e2 | ⟨mid, c2⟩
    · simp only [hl] at h
      exact (Except.error.inj h).symm.trans
        (procLines_error_shape _ _ _ _ _ _ hl)
    · simp only [hl] at h
      rcases hh : procHunks sel isS baseline hs c2 with e3 | ⟨rest, c3⟩
      · simp only [hh] at h
        exact (Except.error.inj h).symm.trans (ih c2 e3 hh)
      · simp only [hh] at h
        simp at h

/-- The Selection Resolver fails only with the malformed-selection
condition or the out-of-bounds condition. -/
theorem apply_selection_error_shape (sel : List DiffLinePosition)
    (hunks : List HunkLines) (old_lines : List String) (isS rev : Bool)
    (e : Error)
    (h : apply_selection sel hunks old_lines isS rev = Except.error e) :
    e = Error.malformedSelection ∨
      e = Error.generic "line out of bounds" := by
  unfold apply_selection at h
  rcases hcov : selectionCovered sel hunks with _ | _
  · rw [hcov] at h
    simp only [Bool.false_eq_true, if_false] at h
    exact Or.inl (Except.error.inj h).symm
  · rw [hcov] at h
    simp only [if_true] at h
    unfold applySelectionCore at h
    rcases hc : procHunks sel isS old_lines hunks 0 with e2 | ⟨out, c⟩
    · simp only [hc] at h
      exact Or.inr ((Except.error.inj h).symm.trans
        (procHunks_error_shape _ _ _ _ _ _ hc))
    · simp only [hc] at h
      simp at h

/-- Anatomy of every failing run of the staging tail: the error is a
verbatim git error, a decode/conversion/resolver error, or the generic
reset wrapper; the state is unchanged except when the reset itself
failed, which happens after the index write of the (then empty)
entry. -/
theorem stage_lines_rest_error_cases (f : Faults)
    (hunks : List HunkLines) (st1 : GitState) (mem1 : List IndexEntry)
    (idx : IndexEntry) (p : String) (is_s : Bool)
    (sel : List DiffLinePosition) (e : Error) (st' : GitState)
    (h : stage_lines_rest f hunks st1 mem1 idx p is_s sel =
      (Except.error e, st')) :
    ((∃ ge : GitError, e = Error.git ge) ∨
     e = Error.fromUtf8 ∨ e = Error.tryFromInt ∨
     e = Error.malformedSelection ∨
     e = Error.generic "line out of bounds" ∨
     e = Error.generic ("Couldn't reset " ++ p)) ∧
    (st' = st1 ∨
     (f.reset.isSome = true ∧ e = Error.generic ("Couldn't reset " ++ p) ∧
      st' = { st1 with index := indexAdd mem1 (stagedEntry idx "") })) := by
  unfold stage_lines_rest at h
  rcases hfc : f.findBlobCall with _ | ge
  case some =>
    simp only [hfc] at h
    simp only [Prod.mk.injEq, Except.error.injEq] at h
    exact ⟨Or.inl ⟨ge, h.1.symm⟩, Or.inl h.2.symm⟩
  simp only [hfc] at h
  rcases hfb : findBlob idx.id with _ | bytes
  case none =>
    simp only [hfb] at h
    simp only [Prod.mk.injEq, Except.error.injEq] at h
    exact ⟨Or.inl ⟨"object not found", h.1.symm⟩, Or.inl h.2.symm⟩
  simp only [hfb] at h
  rcases hdec : utf8Decode bytes with _ | content
  case none =>
    simp only [hdec] at h
    simp only [Prod.mk.injEq, Except.error.injEq] at h
    exact ⟨Or.inr (Or.inl h.1.symm), Or.inl h.2.symm⟩
  simp only [hdec] at h
  rcases hdf : f.diff with _ | ge
  case some =>
    simp only [hdf] at h
    simp only [Prod.mk.injEq, Except.error.injEq] at h
    exact ⟨Or.inl ⟨ge, h.1.symm⟩, Or.inl h.2.symm⟩
  simp only [hdf] at h
  rcases happ : apply_selection sel hunks (linesOf content) is_s false
    with eres | nc
  case error =>
    simp only [happ] at h
    simp only [Prod.mk.injEq, Except.error.injEq] at h
    have htax : eres = Error.malformedSelection ∨
        eres = Error.generic "line out of bounds" :=
      apply_selection_error_shape _ _ _ _ _ _ happ
    rcases htax with h1 | h1
    · exact ⟨Or.inr (Or.inr (Or.inr (Or.inl (h.1.symm.trans h1)))),
        Or.inl h.2.symm⟩
    · exact ⟨Or.inr (Or.inr (Or.inr (Or.inr (Or.inl (h.1.symm.trans h1))))),
        Or.inl h.2.symm⟩
  simp only [happ] at h
  rcases hbw : f.blobWrite with _ | ge
  case some =>
    simp only [hbw] at h
    simp only [Prod.mk.injEq, Except.error.injEq] at h
    exact ⟨Or.inl ⟨ge, h.1.symm⟩, Or.inl h.2.symm⟩
  simp only [hbw] at h
  by_cases hsize : (utf8Encode nc).length > 4294967295
  case pos =>
    rw [if_pos hsize] at h
    simp only [Prod.mk.injEq, Except.error.injEq] at h
    exact ⟨Or.inr (Or.inr (Or.inl h.1.symm)), Or.inl h.2.symm⟩
  rw [if_neg hsize] at h
  rcases hia : f.indexAddCall with _ | ge
  on_goal 2 =>
    simp only [hia] at h
    simp only [Prod.mk.injEq, Except.error.injEq] at h
    exact ⟨Or.inl ⟨ge, h.1.symm⟩, Or.inl h.2.symm⟩
  simp only [hia] at h
  rcases hiw : f.indexWrite with _ | ge
  on_goal 2 =>
    simp only [hiw] at h
    simp only [Prod.mk.injEq, Except.error.injEq] at h
    exact ⟨Or.inl ⟨ge, h.1.symm⟩, Or.inl h.2.symm⟩
  simp only [hiw] at h
  by_cases hnc : nc = ""
  · rw [if_pos hnc] at h
    rcases hr : f.reset with _ | ge
    on_goal 2 =>
      simp only [hr] at h
      simp only [Prod.mk.injEq, Except.error.injEq] at h
      subst hnc
      exact ⟨Or.inr (Or.inr (Or.inr (Or.inr (Or.inr h.1.symm)))),
        Or.inr ⟨rfl, h.1.symm, h.2.symm⟩⟩
    simp only [hr] at h
    simp at h
  · rw [if_neg hnc] at h
    simp at h

theorem rest_taxonomy_lift {e : Error} {p : String}
    (h : (∃ ge : GitError, e = Error.git ge) ∨
      e = Error.fromUtf8 ∨ e = Error.tryFromInt ∨
      e = Error.malformedSelection ∨
      e = Error.generic "line out of bounds" ∨
      e = Error.generic ("Couldn't reset " ++ p)) :
    (∃ ge : GitError, e = Error.git ge) ∨
    e = Error.generic ("Couldn't reset " ++ p) ∨
    e = Error.generic ("Failed to start tracking file " ++ p) ∨
    e = Error.generic ("Couldn't get path " ++ p) ∨
    e = Error.fromUtf8 ∨ e = Error.tryFromInt ∨
    e = Error.malformedSelection ∨
    e = Error.generic "line out of bounds" := by
  tauto

/-- Anatomy of every failing `stage_lines` run: the error is a verbatim
git error, one of the three generic wrappers naming the path, or a
decode/conversion/resolver error; the on-disk index is unchanged except
for the persisted untracked bootstrap, or — when the final reset
failed — the freshly written zero-size entry; the head tree is never
touched. -/
theorem stage_lines_error_cases (f : Faults) (hunks : List HunkLines)
    (st : GitState) (p : String) (is_s : Bool)
    (sel : List DiffLinePosition) (e : Error) (st' : GitState)
    (h : stage_lines f hunks st p is_s sel = (Except.error e, st')) :
    ((∃ ge : GitError, e = Error.git ge) ∨
     e = Error.generic ("Couldn't reset " ++ p) ∨
     e = Error.generic ("Failed to start tracking file " ++ p) ∨
     e = Error.generic ("Couldn't get path " ++ p) ∨
     e = Error.fromUtf8 ∨ e = Error.tryFromInt ∨
     e = Error.malformedSelection ∨
     e = Error.generic "line out of bounds") ∧
    (st'.index = st.index ∨
     (indexGet st.index p = none ∧
      st'.index = indexAdd st.index (persistedBoot p)) ∨
     (f.reset.isSome = true ∧ e = Error.generic ("Couldn't reset " ++ p) ∧
      ∃ en : IndexEntry, en.path = p ∧ en.file_size = 0 ∧ en.flags = 4 ∧
        st'.index = indexAdd st.index en)) ∧
    st'.headTree = st.headTree := by
  by_cases hemp : sel.isEmpty = true
  · rw [stage_lines, hemp] at h
    simp at h
  have hemp' : sel.isEmpty = false := by
    revert hemp; cases sel.isEmpty <;> simp
  rw [stage_lines, hemp'] at h
  simp only [Bool.false_eq_true, if_false] at h
  rcases hro : f.repoOpen with _ | ge
  on_goal 2 =>
    simp only [hro] at h
    simp only [Prod.mk.injEq, Except.error.injEq] at h
    exact ⟨Or.inl ⟨ge, h.1.symm⟩, Or.inl (by rw [← h.2]), by rw [← h.2]⟩
  simp only [hro] at h
  rcases hio : f.indexOpen with _ | ge
  on_goal 2 =>
    simp only [hio] at h
    simp only [Prod.mk.injEq, Except.error.injEq] at h
    exact ⟨Or.inl ⟨ge, h.1.symm⟩, Or.inl (by rw [← h.2]), by rw [← h.2]⟩
  simp only [hio] at h
  rcases hir : f.indexRead with _ | ge
  on_goal 2 =>
    simp only [hir] at h
    simp only [Prod.mk.injEq, Except.error.injEq] at h
    exact ⟨Or.inl ⟨ge, h.1.symm⟩, Or.inl (by rw [← h.2]), by rw [← h.2]⟩
  simp only [hir] at h
  rcases hig : indexGet st.index p with _ | idx0
  · -- untracked path
    simp only [hig] at h
    unfold stage_with_intent_to_add at h
    rcases hba : f.bootAdd with _ | ge
    on_goal 2 =>
      simp only [hba] at h
      simp only [Prod.mk.injEq, Except.error.injEq] at h
      exact ⟨Or.inr (Or.inr (Or.inl h.1.symm)), Or.inl (by rw [← h.2]),
        by rw [← h.2]⟩
    simp only [hba] at h
    rcases hbw : f.bootWrite with _ | ge
    on_goal 2 =>
      simp only [hbw] at h
      simp only [Prod.mk.injEq, Except.error.injEq] at h
      exact ⟨Or.inl ⟨ge, h.1.symm⟩, Or.inl (by rw [← h.2]), by rw [← h.2]⟩
    simp only [hbw] at h
    rcases hbr : f.bootRead with _ | ge
    on_goal 2 =>
      simp only [hbr] at h
      rw [addFromBuffer_boot] at h
      simp only [Prod.mk.injEq, Except.error.injEq] at h
      refine ⟨Or.inl ⟨ge, h.1.symm⟩, Or.inr (Or.inl ⟨rfl, ?_⟩), ?_⟩
      · rw [← h.2]
      · rw [← h.2]
    simp only [hbr] at h
    rw [addFromBuffer_boot] at h
    simp only [indexGet_indexAdd_persistedBoot] at h
    obtain ⟨htax, hstate⟩ :=
      stage_lines_rest_error_cases _ _ _ _ _ _ _ _ _ _ h
    refine ⟨rest_taxonomy_lift htax, ?_, ?_⟩
    · rcases hstate with h1 | ⟨hrs, hee, h1⟩
      · exact Or.inr (Or.inl ⟨rfl, by rw [h1]⟩)
      · refine Or.inr (Or.inr ⟨hrs, hee,
          stagedEntry (persistedBoot p) "", rfl, rfl, rfl, ?_⟩)
        rw [h1]
        exact indexAdd_indexAdd_same_path st.index (persistedBoot p)
          (stagedEntry (persistedBoot p) "") rfl
    · rcases hstate with h1 | ⟨hrs, hee, h1⟩
      · rw [h1]
      · rw [h1]
  · -- tracked path
    simp only [hig] at h
    obtain ⟨htax, hstate⟩ :=
      stage_lines_rest_error_cases _ _ _ _ _ _ _ _ _ _ h
    refine ⟨rest_taxonomy_lift htax, ?_, ?_⟩
    · rcases hstate with h1 | ⟨hrs, hee, h1⟩
      · exact Or.inl (by rw [h1])
      · refine Or.inr (Or.inr ⟨hrs, hee, stagedEntry idx0 "", ?_, rfl, rfl, ?_⟩)
        · have := indexGet_path hig
          simpa [stagedEntry] using this
        · rw [h1]
    · rcases hstate with h1 | ⟨hrs, hee, h1⟩
      · rw [h1]
      · rw [h1]

/-! ## Claim theorems: C7 and C9 -/

/-- C7 counterexample: with a tracked file whose staged content the
selection empties, a failure of the final reset happens *after* the
index write, so the operation returns an error yet the on-disk index
differs from its pre-operation state — and the path was tracked, so the
untracked-bootstrap exception does not apply.  The claim that every
failure leaves the index in its pre-operation state is therefore false
as stated. -/
theorem stage_lines_c7_counterexample :
    (stage_lines faultReset hunksDel stDel "f.txt" false selDel).1 =
      Except.error (Error.generic "Couldn't reset f.txt") ∧
    (stage_lines faultReset hunksDel stDel "f.txt" false selDel).2.index ≠
      stDel.index ∧
    indexGet stDel.index "f.txt" ≠ none := by
  refine ⟨rfl, by decide, by decide⟩

/-- C7 (amended): every failure propagates, never touches the head
tree, and leaves the on-disk index in its pre-operation state — except
that (a) after the untracked-file bootstrap the path remains tracked
with an intent-to-add, empty-content entry, and (b) when the computed
content was empty and the final reset failed (the reset runs after the
index write), the index is left with the freshly written zero-size
entry for that path. -/
theorem stage_lines_error_atomicity (f : Faults) (hunks : List HunkLines)
    (st : GitState) (p : String) (is_s : Bool)
    (sel : List DiffLinePosition) (e : Error) (st' : GitState)
    (h : stage_lines f hunks st p is_s sel = (Except.error e, st')) :
    st'.headTree = st.headTree ∧
    (st'.index = st.index ∨
     (indexGet st.index p = none ∧
      st'.index = indexAdd st.index (persistedBoot p) ∧
      intentToAdd (persistedBoot p) = true) ∨
     (f.reset.isSome = true ∧ e = Error.generic ("Couldn't reset " ++ p) ∧
      ∃ en : IndexEntry, en.path = p ∧ en.file_size = 0 ∧ en.flags = 4 ∧
        st'.index = indexAdd st.index en)) := by
  obtain ⟨htax, hstate, hhead⟩ :=
    stage_lines_error_cases f hunks st p is_s sel e st' h
  refine ⟨hhead, ?_⟩
  rcases hstate with h1 | ⟨h1, h2⟩ | h3
  · exact Or.inl h1
  · exact Or.inr (Or.inl ⟨h1, h2, intentToAdd_persistedBoot p⟩)
  · exact Or.inr (Or.inr h3)

/-- Witness for the amended C7 at a concrete failing input: a failed
repository open aborts the run and leaves the state untouched. -/
theorem stage_lines_error_atomicity_witness :
    stage_lines faultRepo hunksDel stDel "f.txt" false selDel =
      (Except.error (Error.git "io error"), stDel) ∧
    (stDel.headTree = stDel.headTree ∧
     (stDel.index = stDel.index ∨
      (indexGet stDel.index "f.txt" = none ∧
       stDel.index = indexAdd stDel.index (persistedBoot "f.txt") ∧
       intentToAdd (persistedBoot "f.txt") = true) ∨
      (faultRepo.reset.isSome = true ∧
       Error.git "io error" = Error.generic ("Couldn't reset " ++ "f.txt") ∧
       ∃ en : IndexEntry, en.path = "f.txt" ∧ en.file_size = 0 ∧
         en.flags = 4 ∧ stDel.index = indexAdd stDel.index en))) :=
  ⟨rfl, stage_lines_error_atomicity faultRepo hunksDel stDel "f.txt" false
    selDel (Error.git "io error") stDel rfl⟩

/-- C9 counterexample: the failure of `reset_default` is replaced by a
generic message naming the path — the underlying store error
`"disk full"` is discarded, not preserved; and an index-write failure
is surfaced verbatim as a git error with no file-path context attached.
The claim that every store failure is surfaced verbatim *and* wrapped
with the file path is therefore false as stated. -/
theorem stage_lines_c9_counterexample :
    faultReset.reset = some "disk full" ∧
    (stage_lines faultReset hunksDel stDel "f.txt" false selDel).1 =
      Except.error (Error.generic "Couldn't reset f.txt") ∧
    Error.generic "Couldn't reset f.txt" ≠ Error.git "disk full" ∧
    (stage_lines faultWrite hunksDel stDel "f.txt" false selDel).1 =
      Except.error (Error.git "boom") := by
  refine ⟨rfl, rfl, by decide, rfl⟩

/-- C9 (amended): every error a `stage_lines` run surfaces is either a
verbatim git-store error (carrying no file-path context), one of the
three generic wrappers that name the file path but discard the
underlying store error, or a decode / size-conversion / resolver
error. -/
theorem stage_lines_error_taxonomy (f : Faults) (hunks : List HunkLines)
    (st : GitState) (p : String) (is_s : Bool)
    (sel : List DiffLinePosition) (e : Error) (st' : GitState)
    (h : stage_lines f hunks st p is_s sel = (Except.error e, st')) :
    (∃ ge : GitError, e = Error.git ge) ∨
    e = Error.generic ("Couldn't reset " ++ p) ∨
    e = Error.generic ("Failed to start tracking file " ++ p) ∨
    e = Error.generic ("Couldn't get path " ++ p) ∨
    e = Error.fromUtf8 ∨ e = Error.tryFromInt ∨
    e = Error.malformedSelection ∨
    e = Error.generic "line out of bounds" :=
  (stage_lines_error_cases f hunks st p is_s sel e st' h).1

/-- Witness for the amended C9 at a concrete failing input: the failed
reset produces exactly the generic path-naming wrapper. -/
theorem stage_lines_error_taxonomy_witness :
    (stage_lines faultReset hunksDel stDel "f.txt" false selDel).1 =
      Except.error (Error.generic "Couldn't reset f.txt") ∧
    ((∃ ge : GitError,
        Error.generic "Couldn't reset f.txt" = Error.git ge) ∨
     Error.generic "Couldn't reset f.txt" =
       Error.generic ("Couldn't reset " ++ "f.txt") ∨
     Error.generic "Couldn't reset f.txt" =
       Error.generic ("Failed to start tracking file " ++ "f.txt") ∨
     Error.generic "Couldn't reset f.txt" =
       Error.generic ("Couldn't get path " ++ "f.txt") ∨
     Error.generic "Couldn't reset f.txt" = Error.fromUtf8 ∨
     Error.generic "Couldn't reset f.txt" = Error.tryFromInt ∨
     Error.generic "Couldn't reset f.txt" = Error.malformedSelection ∨
     Error.generic "Couldn't reset f.txt" =
       Error.generic "line out of bounds") := by
  have hrun : stage_lines faultReset hunksDel stDel "f.txt" false selDel =
      (Except.error (Error.generic "Couldn't reset f.txt"),
       (stage_lines faultReset hunksDel stDel "f.txt" false selDel).2) := by
    rfl
  exact ⟨rfl, stage_lines_error_taxonomy faultReset hunksDel stDel "f.txt"
    false selDel (Error.generic "Couldn't reset f.txt") _ hrun⟩

/-! ## Witnesses for the hypothesis-bearing claim theorems -/

/-- Witness for C3 at a concrete input: staging the deletion of the
only line empties the content, and the entry ends up as the last-commit
version. -/
theorem stage_lines_empty_result_reset_witness :
    selDel ≠ [] ∧
    baselineContent stDel "f.txt" = some "b\n" ∧
    apply_selection selDel hunksDel (linesOf "b\n") false false =
      Except.ok "" ∧
    stage_lines noFaults hunksDel stDel "f.txt" false selDel =
      (Except.ok (), stDelAfter) ∧
    indexGet stDelAfter.index "f.txt" =
      (headGet stDel "f.txt").map (commitEntry "f.txt") :=
  ⟨by decide, rfl, rfl, rfl,
   stage_lines_empty_result_reset noFaults hunksDel stDel "f.txt" false
     selDel stDelAfter "b\n" (by decide) rfl rfl rfl⟩

/-- Witness for C4 at a concrete input: staging one line of an
untracked file bootstraps the intent-to-add entry and stores exactly
the resolver's output. -/
theorem stage_lines_untracked_bootstrap_witness :
    selNew ≠ [] ∧
    indexGet stNew.index "new.txt" = none ∧
    apply_selection selNew hunksNew (linesOf "") false false =
      Except.ok "hello\n" ∧
    "hello\n" ≠ "" ∧
    stage_lines noFaults hunksNew stNew "new.txt" false selNew =
      (Except.ok (), stNewAfter) ∧
    ((bootstrapEntry "new.txt").file_size = 0 ∧
     (bootstrapEntry "new.txt").id = Oid.zero ∧
     intentToAdd (bootstrapEntry "new.txt") = true ∧
     stage_with_intent_to_add noFaults stNew stNew.index "new.txt" =
       (Except.ok (),
        { stNew with index := indexAdd stNew.index (persistedBoot "new.txt") },
        indexAdd stNew.index (persistedBoot "new.txt")) ∧
     intentToAdd (persistedBoot "new.txt") = true ∧
     entryContentBytes stNewAfter "new.txt" =
       some (utf8Encode "hello\n")) :=
  ⟨by decide, rfl, rfl, by decide, rfl,
   stage_lines_untracked_bootstrap noFaults hunksNew stNew "new.txt" false
     selNew stNewAfter "hello\n" (by decide) rfl rfl (by decide) rfl⟩

/-- Witness for C6 at a concrete input: the C1 staging stores the new
blob with exact size and flags 4, not intent-to-add. -/
theorem stage_lines_writes_entry_witness :
    selC1 ≠ [] ∧
    baselineContent stC1 "test.txt" = some "0\n" ∧
    apply_selection selC1 hunksC1 (linesOf "0\n") false false =
      Except.ok "0\n1\n" ∧
    "0\n1\n" ≠ "" ∧
    stage_lines noFaults hunksC1 stC1 "test.txt" false selC1 =
      (Except.ok (), stC1After) ∧
    (∃ e : IndexEntry,
      indexGet stC1After.index "test.txt" = some e ∧
      e.id = Oid.blob (utf8Encode "0\n1\n") ∧
      e.file_size = (utf8Encode "0\n1\n").length ∧
      e.flags = 4 ∧
      intentToAdd e = false) :=
  ⟨by decide, rfl, rfl, by decide, rfl,
   stage_lines_writes_entry noFaults hunksC1 stC1 "test.txt" false selC1
     stC1After "0\n" "0\n1\n" (by decide) rfl rfl (by decide) rfl⟩

/-- Witness for C8 at a concrete input: a 0xFF blob byte fails decode
and the state is untouched. -/
theorem stage_lines_decode_failure_witness :
    selDel ≠ [] ∧
    indexGet stBad.index "bad.txt" = some (commitEntry "bad.txt" [255]) ∧
    findBlob (commitEntry "bad.txt" [255]).id = some [255] ∧
    utf8Decode [255] = none ∧
    stage_lines noFaults [] stBad "bad.txt" false selDel =
      (Except.error Error.fromUtf8, stBad) :=
  ⟨by decide, rfl, rfl, rfl,
   stage_lines_decode_failure noFaults [] stBad "bad.txt" false selDel
     (commitEntry "bad.txt" [255]) [255] (by decide) rfl rfl rfl rfl rfl
     rfl rfl⟩

/-- Witness for C10 at a concrete input: the C1 staging's stored size
equals the new content's byte length and fits in 32 bits. -/
theorem stage_lines_size_checked_witness :
    selC1 ≠ [] ∧
    baselineContent stC1 "test.txt" = some "0\n" ∧
    apply_selection selC1 hunksC1 (linesOf "0\n") false false =
      Except.ok "0\n1\n" ∧
    "0\n1\n" ≠ "" ∧
    (((utf8Encode "0\n1\n").length > 4294967295 →
      ∀ st', stage_lines noFaults hunksC1 stC1 "test.txt" false selC1 ≠
        (Except.ok (), st')) ∧
     (∀ st', stage_lines noFaults hunksC1 stC1 "test.txt" false selC1 =
        (Except.ok (), st') →
      ∃ e : IndexEntry,
        indexGet st'.index "test.txt" = some e ∧
        e.file_size = (utf8Encode "0\n1\n").length ∧
        (utf8Encode "0\n1\n").length ≤ 4294967295)) :=
  ⟨by decide, rfl, rfl, by decide,
   stage_lines_size_checked noFaults hunksC1 stC1 "test.txt" false selC1
     "0\n" "0\n1\n" (by decide) rfl rfl (by decide)⟩

/-! ## Round-trip machinery: list helpers -/

theorem getElem?_of_drop_cons {α : Type} {l : List α} {n : Nat} {x : α}
    {xs : List α} (h : l.drop n = x :: xs) : l[n]? = some x := by
  have h0 := List.getElem?_drop l n 0
  rw [h] at h0
  simpa using h0.symm

theorem drop_succ_of_drop_cons {α : Type} {l : List α} {n : Nat} {x : α}
    {xs : List α} (h : l.drop n = x :: xs) : l.drop (n + 1) = xs := by
  have h0 := List.drop_drop 1 n l
  rw [h] at h0
  simpa using h0.symm

theorem take_slice_cons {α : Type} {l : List α} {c c2 : Nat} {b : α}
    (hb : l[c]? = some b) (hc : c + 1 ≤ c2) :
    (l.drop c).take (c2 - c) =
      b :: (l.drop (c + 1)).take (c2 - (c + 1)) := by
  obtain ⟨hlt, hbe⟩ := List.getElem?_eq_some_iff.mp hb
  rw [List.drop_eq_getElem_cons hlt, hbe]
  have h2 : c2 - c = (c2 - (c + 1)) + 1 := by omega
  rw [h2, List.take_succ_cons]

theorem slice_append {α : Type} (l : List α) (a b c : Nat)
    (hab : a ≤ b) (hbc : b ≤ c) :
    (l.drop a).take (b - a) ++ (l.drop b).take (c - b) =
      (l.drop a).take (c - a) := by
  have h1 : c - a = (b - a) + (c - b) := by omega
  have h2 : a + (b - a) = b := by omega
  rw [h1, List.take_add, List.drop_drop, h2]

/-- Bookkeeping of a successful stage-mode line walk: the cursor
advances by the consumed count and the output has the produced
length. -/
theorem procLines_spec (sel : List DiffLinePosition) (b0 : List String)
    (ls : List HunkLine) (c : Nat) (out : List String) (c2 : Nat)
    (h : procLines sel false b0 ls c = Except.ok (out, c2)) :
    c2 = c + consumedCount ls ∧ out.length = producedCount sel ls := by
  induction ls generalizing c out c2 with
  | nil =>
    simp only [procLines, Except.ok.injEq, Prod.mk.injEq] at h
    simp [consumedCount, producedCount, ← h.1, ← h.2]
  | cons l ls ih =>
    unfold procLines at h
    by_cases h1 : l.origin = DiffLineType.context
    · rw [if_pos h1] at h
      rcases hb : b0[c]? with _ | b
      · simp only [hb] at h; exact absurd h (by simp)
      simp only [hb] at h
      rcases hr : procLines sel false b0 ls (c + 1) with e | ⟨out1, c2'⟩
      · simp only [hr] at h; exact absurd h (by simp)
      simp only [hr, Except.ok.injEq, Prod.mk.injEq] at h
      obtain ⟨hA, hB⟩ := ih (c + 1) out1 c2' hr
      constructor
      · rw [← h.2, hA]; simp [consumedCount, h1]; omega
      · rw [← h.1]; simp [producedCount, h1, List.length_cons, hB]; omega
    · rw [if_neg h1] at h
      by_cases h2 : addsToBaseline false l.origin = true
      · have horig : l.origin = DiffLineType.add := by
          revert h2; unfold addsToBaseline
          cases l.origin <;> simp
        rw [if_pos h2] at h
        by_cases h3 : sel.contains l.position = true
        · rw [if_pos h3] at h
          have hmem : l.position ∈ sel := by simpa using h3
          rcases hr : procLines sel false b0 ls c with e | ⟨out1, c2'⟩
          · simp only [hr] at h; exact absurd h (by simp)
          simp only [hr, Except.ok.injEq, Prod.mk.injEq] at h
          obtain ⟨hA, hB⟩ := ih c out1 c2' hr
          constructor
          · rw [← h.2, hA]; simp [consumedCount, horig]
          · rw [← h.1]
            simp [producedCount, horig, hmem, List.length_cons, hB]; omega
        · rw [if_neg h3] at h
          have h3' : sel.contains l.position = false := by
            revert h3; cases sel.contains l.position <;> simp
          have hmem : l.position ∉ sel := by
            simpa using h3'
          obtain ⟨hA, hB⟩ := ih c out c2 h
          constructor
          · rw [hA]; simp [consumedCount, horig]
          · rw [hB]; simp [producedCount, horig, hmem]
      · have horig : l.origin = DiffLineType.delete := by
          revert h1 h2; unfold addsToBaseline
          cases l.origin <;> simp
        rw [if_neg h2] at h
        by_cases h3 : sel.contains l.position = true
        · rw [if_pos h3] at h
          have hmem : l.position ∈ sel := by simpa using h3
          obtain ⟨hA, hB⟩ := ih (c + 1) out c2 h
          constructor
          · rw [hA]; simp [consumedCount, horig]; omega
          · rw [hB]; simp [producedCount, horig, hmem]
        · rw [if_neg h3] at h
          have h3' : sel.contains l.position = false := by
            revert h3; cases sel.contains l.position <;> simp
          have hmem : l.position ∉ sel := by
            simpa using h3'
          rcases hb : b0[c]? with _ | b
          · simp only [hb] at h; exact absurd h (by simp)
          simp only [hb] at h
          rcases hr : procLines sel false b0 ls (c + 1) with e | ⟨out1, c2'⟩
          · simp only [hr] at h; exact absurd h (by simp)
          simp only [hr, Except.ok.injEq, Prod.mk.injEq] at h
          obtain ⟨hA, hB⟩ := ih (c + 1) out1 c2' hr
          constructor
          · rw [← h.2, hA]; simp [consumedCount, horig]; omega
          · rw [← h.1]
            simp [producedCount, horig, hmem, List.length_cons, hB]; omega

/-! ## Step equations for the resolver walk -/

theorem procLines_step_ctx (sel : List DiffLinePosition) (isS : Bool)
    (baseline : List String) (l : HunkLine) (ls : List HunkLine)
    (c : Nat) (b : String) (h1 : l.origin = DiffLineType.context)
    (hb : baseline[c]? = some b) :
    procLines sel isS baseline (l :: ls) c =
      match procLines sel isS baseline ls (c + 1) with
      | Except.error e => Except.error e
      | Except.ok (out, c2) => Except.ok (b :: out, c2) := by
  conv_lhs => rw [procLines]
  rw [if_pos h1, hb]

theorem procLines_step_adds_sel (sel : List DiffLinePosition) (isS : Bool)
    (baseline : List String) (l : HunkLine) (ls : List HunkLine)
    (c : Nat) (h0 : ¬ l.origin = DiffLineType.context)
    (h1 : addsToBaseline isS l.origin = true)
    (h2 : sel.contains l.position = true) :
    procLines sel isS baseline (l :: ls) c =
      match procLines sel isS baseline ls c with
      | Except.error e => Except.error e
      | Except.ok (out, c2) => Except.ok (l.content :: out, c2) := by
  conv_lhs => rw [procLines]
  rw [if_neg h0, if_pos h1, if_pos h2]

theorem procLines_step_adds_unsel (sel : List DiffLinePosition)
    (isS : Bool) (baseline : List String) (l : HunkLine)
    (ls : List HunkLine) (c : Nat)
    (h0 : ¬ l.origin = DiffLineType.context)
    (h1 : addsToBaseline isS l.origin = true)
    (h2 : ¬ sel.contains l.position = true) :
    procLines sel isS baseline (l :: ls) c =
      procLines sel isS baseline ls c := by
  conv_lhs => rw [procLines]
  rw [if_neg h0, if_pos h1, if_neg h2]

theorem procLines_step_removes_sel (sel : List DiffLinePosition)
    (isS : Bool) (baseline : List String) (l : HunkLine)
    (ls : List HunkLine) (c : Nat)
    (h0 : ¬ l.origin = DiffLineType.context)
    (h1 : ¬ addsToBaseline isS l.origin = true)
    (h2 : sel.contains l.position = true) :
    procLines sel isS baseline (l :: ls) c =
      procLines sel isS baseline ls (c + 1) := by
  conv_lhs => rw [procLines]
  rw [if_neg h0, if_neg h1, if_pos h2]

theorem procLines_step_removes_unsel (sel : List DiffLinePosition)
    (isS : Bool) (baseline : List String) (l : HunkLine)
    (ls : List HunkLine) (c : Nat) (b : String)
    (h0 : ¬ l.origin = DiffLineType.context)
    (h1 : ¬ addsToBaseline isS l.origin = true)
    (h2 : ¬ sel.contains l.position = true)
    (hb : baseline[c]? = some b) :
    procLines sel isS baseline (l :: ls) c =
      match procLines sel isS baseline ls (c + 1) with
      | Except.error e => Except.error e
      | Except.ok (out, c2) => Except.ok (b :: out, c2) := by
  conv_lhs => rw [procLines]
  rw [if_neg h0, if_neg h1, if_neg h2, hb]

/-! ## The line-level round trip -/

/-- Unstaging the inverse lines over the staged output restores exactly
the baseline segment the stage-mode walk consumed. -/
theorem procLines_roundtrip (sel : List DiffLinePosition)
    (b0 b1 : List String) (ls : List HunkLine) (c cp : Nat)
    (out : List String) (c2 : Nat) (tail : List String)
    (hfit : linesFit b0 ls c = true)
    (hrun : procLines sel false b0 ls c = Except.ok (out, c2))
    (hb1 : b1.drop cp = out ++ tail) :
    procLines sel true b1 (ls.filterMap (invLine sel)) cp =
      Except.ok ((b0.drop c).take (c2 - c), cp + out.length) := by
  induction ls generalizing c cp out c2 tail with
  | nil =>
    simp only [procLines, Except.ok.injEq, Prod.mk.injEq] at hrun
    obtain ⟨h1, h2⟩ := hrun
    simp [List.filterMap_nil, procLines, ← h1, ← h2]
  | cons l ls ih =>
    unfold procLines at hrun
    by_cases h1 : l.origin = DiffLineType.context
    · -- context line: copied from both baselines
      rw [if_pos h1] at hrun
      rcases hb : b0[c]? with _ | b
      · simp only [hb] at hrun; exact absurd hrun (by simp)
      simp only [hb] at hrun
      rcases hr : procLines sel false b0 ls (c + 1) with e | ⟨out1, c2'⟩
      · simp only [hr] at hrun; exact absurd hrun (by simp)
      simp only [hr, Except.ok.injEq, Prod.mk.injEq] at hrun
      obtain ⟨ho, hc2⟩ := hrun
      rw [hc2] at hr
      have hfit' : linesFit b0 ls (c + 1) = true := by
        simpa [linesFit, h1] using hfit
      rw [← ho, List.cons_append] at hb1
      have hb1head : b1[cp]? = some b := getElem?_of_drop_cons hb1
      have hb1' : b1.drop (cp + 1) = out1 ++ tail :=
        drop_succ_of_drop_cons hb1
      have hinv : invLine sel l = some l := by simp [invLine, h1]
      have hcle : c + 1 ≤ c2 := by
        obtain ⟨hA, _⟩ := procLines_spec sel b0 ls (c + 1) out1 c2 hr
        omega
      rw [List.filterMap_cons, hinv,
        procLines_step_ctx sel true b1 l _ cp b h1 hb1head,
        ih (c + 1) (cp + 1) out1 c2 tail hfit' hr hb1',
        take_slice_cons hb hcle, ← ho, List.length_cons]
      have hlen : cp + 1 + out1.length = cp + (out1.length + 1) := by omega
      rw [hlen]
    · rw [if_neg h1] at hrun
      by_cases h2 : addsToBaseline false l.origin = true
      · -- addition in stage mode
        have horig : l.origin = DiffLineType.add := by
          revert h2; unfold addsToBaseline
          cases l.origin <;> simp
        rw [if_pos h2] at hrun
        have hfit' : linesFit b0 ls c = true := by
          simpa [linesFit, horig] using hfit
        by_cases h3 : sel.contains l.position = true
        · -- selected: staged into the output, removed again on unstage
          rw [if_pos h3] at hrun
          rcases hr : procLines sel false b0 ls c with e | ⟨out1, c2'⟩
          · simp only [hr] at hrun; exact absurd hrun (by simp)
          simp only [hr, Except.ok.injEq, Prod.mk.injEq] at hrun
          obtain ⟨ho, hc2⟩ := hrun
          rw [hc2] at hr
          rw [← ho, List.cons_append] at hb1
          have hb1' : b1.drop (cp + 1) = out1 ++ tail :=
            drop_succ_of_drop_cons hb1
          have hmem : l.position ∈ sel := by simpa using h3
          have hinv : invLine sel l = some l := by
            simp [invLine, horig, hmem]
          have hrem : ¬ addsToBaseline true l.origin = true := by
            rw [horig]; simp [addsToBaseline]
          rw [List.filterMap_cons, hinv,
            procLines_step_removes_sel sel true b1 l _ cp
              (by rw [horig]; simp) hrem h3,
            ih c (cp + 1) out1 c2 tail hfit' hr hb1',
            ← ho, List.length_cons]
          have hlen : cp + 1 + out1.length = cp + (out1.length + 1) := by
            omega
          rw [hlen]
        · -- unselected addition: never staged, absent from the inverse
          rw [if_neg h3] at hrun
          have hinv : invLine sel l = none := by
            simp [invLine, horig]
            intro hmem
            exact absurd (by simpa using hmem) h3
          rw [List.filterMap_cons, hinv]
          exact ih c cp out c2 tail hfit' hrun hb1
      · -- deletion in stage mode
        have horig : l.origin = DiffLineType.delete := by
          revert h1 h2; unfold addsToBaseline
          cases l.origin <;> simp
        rw [if_neg h2] at hrun
        have hfit2 : (b0[c]? == some l.content) = true ∧
            linesFit b0 ls (c + 1) = true := by
          have := hfit
          rw [linesFit] at this
          rw [horig] at this
          simpa using this
        have hbc : b0[c]? = some l.content := by
          have := hfit2.1
          simpa using this
        have hfit' : linesFit b0 ls (c + 1) = true := hfit2.2
        by_cases h3 : sel.contains l.position = true
        · -- selected deletion: dropped from the output, restored on unstage
          rw [if_pos h3] at hrun
          have hadds : addsToBaseline true l.origin = true := by
            rw [horig]; simp [addsToBaseline]
          have hmem : l.position ∈ sel := by simpa using h3
          have hinv : invLine sel l = some l := by
            simp [invLine, horig, hmem]
          have hcle : c + 1 ≤ c2 := by
            obtain ⟨hA, _⟩ := procLines_spec sel b0 ls (c + 1) out c2 hrun
            omega
          rw [List.filterMap_cons, hinv,
            procLines_step_adds_sel sel true b1 l _ cp
              (by rw [horig]; simp) hadds h3,
            ih (c + 1) cp out c2 tail hfit' hrun hb1,
            take_slice_cons hbc hcle]
        · -- unselected deletion: retained in the output, context on unstage
          rw [if_neg h3] at hrun
          rcases hb : b0[c]? with _ | b
          · simp only [hb] at hrun; exact absurd hrun (by simp)
          simp only [hb] at hrun
          rcases hr : procLines sel false b0 ls (c + 1) with e | ⟨out1, c2'⟩
          · simp only [hr] at hrun; exact absurd hrun (by simp)
          simp only [hr, Except.ok.injEq, Prod.mk.injEq] at hrun
          obtain ⟨ho, hc2⟩ := hrun
          rw [hc2] at hr
          rw [← ho, List.cons_append] at hb1
          have hb1head : b1[cp]? = some b := getElem?_of_drop_cons hb1
          have hb1' : b1.drop (cp + 1) = out1 ++ tail :=
            drop_succ_of_drop_cons hb1
          have hinv : invLine sel l =
              some { l with origin := DiffLineType.context } := by
            simp [invLine, horig]
            intro hmem
            exact absurd (by simpa using hmem) h3
          have hcle : c + 1 ≤ c2 := by
            obtain ⟨hA, _⟩ := procLines_spec sel b0 ls (c + 1) out1 c2 hr
            omega
          rw [List.filterMap_cons, hinv,
            procLines_step_ctx sel true b1 _ _ cp b rfl hb1head,
            ih (c + 1) (cp + 1) out1 c2 tail hfit' hr hb1',
            take_slice_cons hb hcle, ← ho, List.length_cons]
          have hlen : cp + 1 + out1.length = cp + (out1.length + 1) := by
            omega
          rw [hlen]

theorem procHunks_step (sel : List DiffLinePosition) (isS : Bool)
    (baseline : List String) (hk : HunkLines) (hs : List HunkLines)
    (c : Nat) :
    procHunks sel isS baseline (hk :: hs) c =
      match procLines sel isS baseline hk.lines
          (c + (baseStart isS hk - 1 - c)) with
      | Except.error e => Except.error e
      | Except.ok (mid, c2) =>
        match procHunks sel isS baseline hs c2 with
        | Except.error e => Except.error e
        | Except.ok (rest, c3) =>
          Except.ok ((baseline.drop c).take (baseStart isS hk - 1 - c)
            ++ mid ++ rest, c3) := by
  conv_lhs => rw [procHunks]

theorem procHunks_cursor_le (sel : List DiffLinePosition)
    (b0 : List String) (hs : List HunkLines) (c : Nat)
    (out : List String) (c2 : Nat)
    (h : procHunks sel false b0 hs c = Except.ok (out, c2)) : c ≤ c2 := by
  induction hs generalizing c out c2 with
  | nil =>
    simp only [procHunks, Except.ok.injEq, Prod.mk.injEq] at h
    omega
  | cons hk hs ih =>
    rw [procHunks_step] at h
    rcases hl : procLines sel false b0 hk.lines
        (c + (baseStart false hk - 1 - c)) with e | ⟨mid, cm⟩
    · simp only [hl] at h; exact absurd h (by simp)
    simp only [hl] at h
    rcases hh : procHunks sel false b0 hs cm with e | ⟨rest, c3⟩
    · simp only [hh] at h; exact absurd h (by simp)
    simp only [hh, Except.ok.injEq, Prod.mk.injEq] at h
    obtain ⟨hA, _⟩ := procLines_spec sel b0 hk.lines _ mid cm hl
    have := ih cm rest c3 hh
    omega

/-- Unstaging the inverse hunks over the staged output restores exactly
the baseline segment the stage-mode walk consumed. -/
theorem procHunks_roundtrip (sel : List DiffLinePosition)
    (b0 b1 : List String) (hs : List HunkLines) (c cp : Nat)
    (out : List String) (c2 : Nat) (tail : List String)
    (hfit : hunksFit b0 hs c = true)
    (hrun : procHunks sel false b0 hs c = Except.ok (out, c2))
    (hb1 : b1.drop cp = out ++ tail) :
    procHunks sel true b1 (invHunks sel hs c cp) cp =
      Except.ok ((b0.drop c).take (c2 - c), cp + out.length) := by
  induction hs generalizing c cp out c2 tail with
  | nil =>
    simp only [procHunks, Except.ok.injEq, Prod.mk.injEq] at hrun
    obtain ⟨h1, h2⟩ := hrun
    simp [invHunks, procHunks, ← h1, ← h2]
  | cons hk hs ih =>
    have hfits := hfit
    simp only [hunksFit, Bool.and_eq_true, decide_eq_true_eq] at hfits
    obtain ⟨⟨⟨hc1, hcL⟩, hlf⟩, hfit'⟩ := hfits
    rw [procHunks_step] at hrun
    have hbs : baseStart false hk = hk.old_start := rfl
    rw [hbs] at hrun
    have hck : c + (hk.old_start - 1 - c) = hk.old_start - 1 := by omega
    rw [hck] at hrun
    rcases hl : procLines sel false b0 hk.lines (hk.old_start - 1)
      with e | ⟨mid, cm⟩
    · simp only [hl] at hrun; exact absurd hrun (by simp)
    simp only [hl] at hrun
    rcases hh : procHunks sel false b0 hs cm with e | ⟨rest, c3⟩
    · simp only [hh] at hrun; exact absurd hrun (by simp)
    simp only [hh, Except.ok.injEq, Prod.mk.injEq] at hrun
    obtain ⟨ho, hc3⟩ := hrun
    rw [hc3] at hh
    obtain ⟨hcm, hmlen⟩ :=
      procLines_spec sel b0 hk.lines (hk.old_start - 1) mid cm hl
    have hc2ge : cm ≤ c2 := procHunks_cursor_le sel b0 hs cm rest c2 hh
    -- the copied prefix
    have hprelen :
        ((b0.drop c).take (hk.old_start - 1 - c)).length =
          hk.old_start - 1 - c := by
      simp only [List.length_take, List.length_drop]
      omega
    rw [← ho] at hb1
    have hb1a : b1.drop cp =
        (b0.drop c).take (hk.old_start - 1 - c) ++
          (mid ++ (rest ++ tail)) := by
      rw [hb1]; simp [List.append_assoc]
    have hb1mid : b1.drop (cp + (hk.old_start - 1 - c)) =
        mid ++ (rest ++ tail) := by
      have hdd := List.drop_drop (hk.old_start - 1 - c) cp b1
      rw [hb1a] at hdd
      rw [List.drop_left' hprelen] at hdd
      rw [← hdd]
    have hmidrun := procLines_roundtrip sel b0 b1 hk.lines
      (hk.old_start - 1) (cp + (hk.old_start - 1 - c)) mid cm
      (rest ++ tail) hlf hl hb1mid
    have hb1rest : b1.drop (cp + (hk.old_start - 1 - c) + mid.length) =
        rest ++ tail := by
      have hdd := List.drop_drop mid.length
        (cp + (hk.old_start - 1 - c)) b1
      rw [hb1mid] at hdd
      rw [List.drop_left' rfl] at hdd
      exact hdd.symm
    have hfit'' : hunksFit b0 hs cm = true := by
      rw [hcm]; exact hfit'
    have hrest := ih cm (cp + (hk.old_start - 1 - c) + mid.length)
      rest c2 tail hfit'' hh hb1rest
    -- now evaluate the unstage-mode walk
    simp only [invHunks]
    rw [procHunks_step]
    have hbs' : baseStart true
        { old_start := hk.old_start,
          new_start := hk.old_start + cp - c,
          lines := hk.lines.filterMap (invLine sel) } =
        hk.old_start + cp - c := rfl
    rw [hbs']
    have hstart : cp + (hk.old_start + cp - c - 1 - cp) =
        cp + (hk.old_start - 1 - c) := by omega
    rw [hstart]
    have hacc : invHunks sel hs (hk.old_start - 1 + consumedCount hk.lines)
        (cp + (hk.old_start - 1 - c) + producedCount sel hk.lines) =
        invHunks sel hs cm
          (cp + (hk.old_start - 1 - c) + mid.length) := by
      rw [hcm, hmlen]
    rw [hacc]
    simp only [hmidrun, hrest]
    -- assemble the segments
    have hpre' : (b1.drop cp).take (hk.old_start + cp - c - 1 - cp) =
        (b0.drop c).take (hk.old_start - 1 - c) := by
      have hk1 : hk.old_start + cp - c - 1 - cp = hk.old_start - 1 - c := by
        omega
      rw [hk1, hb1a, List.take_left' hprelen]
    rw [hpre']
    have hseg1 : (b0.drop c).take (hk.old_start - 1 - c) ++
        (b0.drop (hk.old_start - 1)).take (cm - (hk.old_start - 1)) =
        (b0.drop c).take (cm - c) :=
      slice_append b0 c (hk.old_start - 1) cm (by omega) (by omega)
    have hseg2 : (b0.drop c).take (cm - c) ++
        (b0.drop cm).take (c2 - cm) = (b0.drop c).take (c2 - c) :=
      slice_append b0 c cm c2 (by omega) hc2ge
    have hlen : cp + out.length =
        cp + (hk.old_start - 1 - c) + mid.length + rest.length := by
      rw [← ho]
      simp only [List.length_append, hprelen]
      omega
    rw [hseg1, hseg2, hlen]

/-- Unstaging the inverse hunks over the full staged output restores
the full baseline. -/
theorem applySelectionCore_roundtrip (sel : List DiffLinePosition)
    (hunks : List HunkLines) (b0 L1 : List String)
    (hfit : hunksFit b0 hunks 0 = true)
    (hrun : applySelectionCore sel hunks b0 false = Except.ok L1) :
    applySelectionCore sel (invHunks sel hunks 0 0) L1 true =
      Except.ok b0 := by
  unfold applySelectionCore at hrun ⊢
  rcases hp : procHunks sel false b0 hunks 0 with e | ⟨out, c2⟩
  · simp only [hp] at hrun; exact absurd hrun (by simp)
  simp only [hp, Except.ok.injEq] at hrun
  have hb1 : L1.drop 0 = out ++ b0.drop c2 := by simp [← hrun]
  have hrt := procHunks_roundtrip sel b0 L1 hunks 0 0 out c2
    (b0.drop c2) hfit hp hb1
  simp only [hrt]
  have hdropL1 : L1.drop (0 + out.length) = b0.drop c2 := by
    rw [← hrun]
    simpa using List.drop_left out (b0.drop c2)
  rw [hdropL1]
  simp [List.take_append_drop]

/-- A successful resolver call decomposes into the coverage check and
the core walk, joined back into text. -/
theorem apply_selection_ok_inversion (sel : List DiffLinePosition)
    (hunks : List HunkLines) (old_lines : List String) (isS rev : Bool)
    (c1 : String)
    (h : apply_selection sel hunks old_lines isS rev = Except.ok c1) :
    selectionCovered sel hunks = true ∧
    ∃ L1, applySelectionCore sel hunks old_lines isS = Except.ok L1 ∧
      c1 = joinLines L1 := by
  unfold apply_selection at h
  rcases hcov : selectionCovered sel hunks with _ | _
  · rw [hcov] at h; simp at h
  · rw [hcov] at h
    simp only [if_true] at h
    rcases hc : applySelectionCore sel hunks old_lines isS with e | L1
    · simp only [hc] at h; simp at h
    · simp only [hc, Except.ok.injEq] at h
      exact ⟨rfl, L1, rfl, h.symm⟩

/-- Every hunk has an image among the inverse hunks, carrying the
filtered lines. -/
theorem invHunks_mem (sel : List DiffLinePosition) (hs : List HunkLines) :
    ∀ (c cp : Nat) (hk : HunkLines), hk ∈ hs →
      ∃ hk' ∈ invHunks sel hs c cp,
        hk'.lines = hk.lines.filterMap (invLine sel) := by
  induction hs with
  | nil => intro c cp hk h; simp at h
  | cons x xs ih =>
    intro c cp hk h
    rcases List.mem_cons.mp h with h1 | h1
    · refine ⟨_, List.mem_cons_self _ _, ?_⟩
      rw [h1]
    · obtain ⟨hk', hmem, hl⟩ := ih _ _ hk h1
      exact ⟨hk', List.mem_cons_of_mem _ hmem, hl⟩

/-- The coverage check survives the inverse construction: every
selected position still occurs among the inverse hunks' lines. -/
theorem selectionCovered_invHunks (sel : List DiffLinePosition)
    (hunks : List HunkLines) (c cp : Nat)
    (h : selectionCovered sel hunks = true) :
    selectionCovered sel (invHunks sel hunks c cp) = true := by
  unfold selectionCovered at h ⊢
  rw [List.all_eq_true] at h ⊢
  intro pos hpos
  have hh := h pos hpos
  rw [List.any_eq_true] at hh
  obtain ⟨hk, hkmem, hline⟩ := hh
  rw [List.any_eq_true] at hline
  obtain ⟨l, lmem, hlpos⟩ := hline
  obtain ⟨hk', hk'mem, hl⟩ := invHunks_mem sel hunks c cp hk hkmem
  rw [List.any_eq_true]
  refine ⟨hk', hk'mem, ?_⟩
  rw [List.any_eq_true, hl]
  have hlpos' : l.position = pos := by simpa using hlpos
  rcases horig : l.origin with _ | _ | _
  · exact ⟨l, List.mem_filterMap.mpr ⟨l, lmem, by simp [invLine, horig]⟩,
      by simp [hlpos']⟩
  · have hmem : l.position ∈ sel := by rw [hlpos']; simpa using hpos
    exact ⟨l, List.mem_filterMap.mpr
      ⟨l, lmem, by simp [invLine, horig, hmem]⟩, by simp [hlpos']⟩
  · by_cases hmem : l.position ∈ sel
    · exact ⟨l, List.mem_filterMap.mpr
        ⟨l, lmem, by simp [invLine, horig, hmem]⟩, by simp [hlpos']⟩
    · refine ⟨{ l with origin := DiffLineType.context },
        List.mem_filterMap.mpr ⟨l, lmem, by simp [invLine, horig, hmem]⟩,
        by simp [hlpos']⟩

/-- The stage-mode walk emits only baseline lines and hunk-line
contents. -/
theorem procLines_no_nl (sel : List DiffLinePosition) (isS : Bool)
    (b0 : List String) (ls : List HunkLine) (c : Nat)
    (out : List String) (c2 : Nat)
    (hb : ∀ x ∈ b0, '\n' ∉ x.data)
    (hl : ∀ l ∈ ls, '\n' ∉ l.content.data)
    (h : procLines sel isS b0 ls c = Except.ok (out, c2)) :
    ∀ x ∈ out, '\n' ∉ x.data := by
  induction ls generalizing c out c2 with
  | nil =>
    simp only [procLines, Except.ok.injEq, Prod.mk.injEq] at h
    rw [← h.1]
    intro x hx
    simp at hx
  | cons l ls ih =>
    have hl' : ∀ l' ∈ ls, '\n' ∉ l'.content.data := fun l' h' =>
      hl l' (List.mem_cons_of_mem _ h')
    unfold procLines at h
    by_cases h1 : l.origin = DiffLineType.context
    · rw [if_pos h1] at h
      rcases hbc : b0[c]? with _ | b
      · simp only [hbc] at h; exact absurd h (by simp)
      simp only [hbc] at h
      rcases hr : procLines sel isS b0 ls (c + 1) with e | ⟨out1, c2'⟩
      · simp only [hr] at h; exact absurd h (by simp)
      simp only [hr, Except.ok.injEq, Prod.mk.injEq] at h
      rw [← h.1]
      intro x hx
      rcases List.mem_cons.mp hx with hx1 | hx1
      · rw [hx1]; exact hb b (List.getElem?_mem hbc)
      · exact ih (c + 1) out1 c2' hl' hr x hx1
    · rw [if_neg h1] at h
      by_cases h2 : addsToBaseline isS l.origin = true
      · rw [if_pos h2] at h
        by_cases h3 : sel.contains l.position = true
        · rw [if_pos h3] at h
          rcases hr : procLines sel isS b0 ls c with e | ⟨out1, c2'⟩
          · simp only [hr] at h; exact absurd h (by simp)
          simp only [hr, Except.ok.injEq, Prod.mk.injEq] at h
          rw [← h.1]
          intro x hx
          rcases List.mem_cons.mp hx with hx1 | hx1
          · rw [hx1]; exact hl l (List.mem_cons_self _ _)
          · exact ih c out1 c2' hl' hr x hx1
        · rw [if_neg h3] at h
          exact ih c out c2 hl' h
      · rw [if_neg h2] at h
        by_cases h3 : sel.contains l.position = true
        · rw [if_pos h3] at h
          exact ih (c + 1) out c2 hl' h
        · rw [if_neg h3] at h
          rcases hbc : b0[c]? with _ | b
          · simp only [hbc] at h; exact absurd h (by simp)
          simp only [hbc] at h
          rcases hr : procLines sel isS b0 ls (c + 1) with e | ⟨out1, c2'⟩
          · simp only [hr] at h; exact absurd h (by simp)
          simp only [hr, Except.ok.injEq, Prod.mk.injEq] at h
          rw [← h.1]
          intro x hx
          rcases List.mem_cons.mp hx with hx1 | hx1
          · rw [hx1]; exact hb b (List.getElem?_mem hbc)
          · exact ih (c + 1) out1 c2' hl' hr x hx1

/-- The hunk walk emits only baseline lines and hunk-line contents. -/
theorem procHunks_no_nl (sel : List DiffLinePosition) (isS : Bool)
    (b0 : List String) (hs : List HunkLines) (c : Nat)
    (out : List String) (c2 : Nat)
    (hb : ∀ x ∈ b0, '\n' ∉ x.data)
    (hl : ∀ hk ∈ hs, ∀ l ∈ hk.lines, '\n' ∉ l.content.data)
    (h : procHunks sel isS b0 hs c = Except.ok (out, c2)) :
    ∀ x ∈ out, '\n' ∉ x.data := by
  induction hs generalizing c out c2 with
  | nil =>
    simp only [procHunks, Except.ok.injEq, Prod.mk.injEq] at h
    rw [← h.1]
    intro x hx
    simp at hx
  | cons hk hs ih =>
    rw [procHunks_step] at h
    rcases hr : procLines sel isS b0 hk.lines
        (c + (baseStart isS hk - 1 - c)) with e | ⟨mid, cm⟩
    · simp only [hr] at h; exact absurd h (by simp)
    simp only [hr] at h
    rcases hh : procHunks sel isS b0 hs cm with e | ⟨rest, c3⟩
    · simp only [hh] at h; exact absurd h (by simp)
    simp only [hh, Except.ok.injEq, Prod.mk.injEq] at h
    rw [← h.1]
    intro x hx
    rcases List.mem_append.mp hx with hx1 | hx1
    · rcases List.mem_append.mp hx1 with hx2 | hx2
      · exact hb x (List.mem_of_mem_drop (List.mem_of_mem_take hx2))
      · exact procLines_no_nl sel isS b0 hk.lines _ mid cm hb
          (hl hk (List.mem_cons_self _ _)) hr x hx2
    · exact ih cm rest c3
        (fun hk' h' => hl hk' (List.mem_cons_of_mem _ h')) hh x hx1

/-- The resolver's output lines contain no newline character when the
baseline lines and the hunk contents do not. -/
theorem applySelectionCore_no_nl (sel : List DiffLinePosition)
    (hunks : List HunkLines) (b0 : List String) (isS : Bool)
    (L1 : List String)
    (hb : ∀ x ∈ b0, '\n' ∉ x.data)
    (hl : ∀ hk ∈ hunks, ∀ l ∈ hk.lines, '\n' ∉ l.content.data)
    (h : applySelectionCore sel hunks b0 isS = Except.ok L1) :
    ∀ x ∈ L1, '\n' ∉ x.data := by
  unfold applySelectionCore at h
  rcases hp : procHunks sel isS b0 hunks 0 with e | ⟨out, c2⟩
  · simp only [hp] at h; exact absurd h (by simp)
  simp only [hp, Except.ok.injEq] at h
  rw [← h]
  intro x hx
  rcases List.mem_append.mp hx with hx1 | hx1
  · exact procHunks_no_nl sel isS b0 hunks 0 out c2 hb hl hp x hx1
  · exact hb x (List.mem_of_mem_drop hx1)

/-! ## Lines / join lemmas -/

theorem splitNl_no_nl (cs : List Char) :
    ∀ l ∈ splitNl cs, '\n' ∉ l := by
  induction cs with
  | nil => intro l h; simp [splitNl] at h
  | cons c cs ih =>
    intro l h
    unfold splitNl at h
    by_cases hc : c = '\n'
    · rw [if_pos hc] at h
      rcases List.mem_cons.mp h with h1 | h1
      · rw [h1]; simp
      · exact ih l h1
    · rw [if_neg hc] at h
      rcases hs : splitNl cs with _ | ⟨l0, ls0⟩
      · rw [hs] at h
        rcases List.mem_cons.mp h with h1 | h1
        · rw [h1]
          intro hx
          rcases List.mem_singleton.mp hx with h2
          exact hc h2.symm
        · simp at h1
      · rw [hs] at h
        rcases List.mem_cons.mp h with h1 | h1
        · rw [h1]
          intro hx
          rcases List.mem_cons.mp hx with h2 | h2
          · exact hc h2.symm
          · exact ih l0 (by rw [hs]; exact List.mem_cons_self _ _) h2
        · exact ih l (by rw [hs]; exact List.mem_cons_of_mem _ h1)

theorem linesOf_no_nl (s : String) :
    ∀ x ∈ linesOf s, '\n' ∉ x.data := by
  intro x hx
  unfold linesOf at hx
  obtain ⟨l, hl, hxl⟩ := List.mem_map.mp hx
  rw [← hxl]
  exact splitNl_no_nl s.data l hl

theorem splitNl_ne_nil_of_mem_nl (cs : List Char) (h : '\n' ∈ cs) :
    splitNl cs ≠ [] := by
  induction cs with
  | nil => simp at h
  | cons c cs ih =>
    unfold splitNl
    by_cases hc : c = '\n'
    · rw [if_pos hc]; simp
    · rw [if_neg hc]
      have h' : '\n' ∈ cs := by
        rcases List.mem_cons.mp h with h1 | h1
        · exact absurd h1.symm hc
        · exact h1
      rcases hs : splitNl cs with _ | ⟨l0, ls0⟩
      · exact absurd hs (ih h')
      · simp

theorem splitNl_append_nl (l rest : List Char) (h : '\n' ∉ l) :
    splitNl (l ++ '\n' :: rest) = l :: splitNl rest := by
  induction l with
  | nil => simp [splitNl]
  | cons c cs ih =>
    have hc : ¬ c = '\n' := by
      intro hc
      exact h (by rw [hc]; exact List.mem_cons_self _ _)
    have h' : '\n' ∉ cs := fun hx => h (List.mem_cons_of_mem _ hx)
    have hrec := ih h'
    show splitNl (c :: (cs ++ '\n' :: rest)) = (c :: cs) :: splitNl rest
    conv_lhs => rw [splitNl]
    rw [if_neg hc, hrec]

theorem splitNl_joinNl (L : List (List Char))
    (h : ∀ l ∈ L, '\n' ∉ l) : splitNl (joinNl L) = L := by
  induction L with
  | nil => rfl
  | cons l ls ih =>
    show splitNl (l ++ '\n' :: joinNl ls) = l :: ls
    rw [splitNl_append_nl l (joinNl ls) (h l (List.mem_cons_self _ _)),
      ih (fun l' h' => h l' (List.mem_cons_of_mem _ h'))]

theorem stringMk_data (s : String) : String.mk s.data = s := rfl

theorem linesOf_joinLines (ls : List String)
    (h : ∀ s ∈ ls, '\n' ∉ s.data) : linesOf (joinLines ls) = ls := by
  unfold linesOf joinLines
  have hdata : (String.mk (joinNl (ls.map (fun s => s.data)))).data =
      joinNl (ls.map (fun s => s.data)) := rfl
  rw [hdata, splitNl_joinNl]
  · rw [List.map_map]
    have hid : ((fun l => String.mk l) ∘ fun (s : String) => s.data) =
        id := funext (fun s => rfl)
    rw [hid, List.map_id]
  · intro l hl
    obtain ⟨s, hs, hsl⟩ := List.mem_map.mp hl
    rw [← hsl]
    exact h s hs

theorem joinLines_cons_ne_empty (a : String) (ls : List String) :
    joinLines (a :: ls) ≠ "" := by
  intro hcontra
  have hd : (joinLines (a :: ls)).data = [] := by
    rw [hcontra]
  unfold joinLines joinNl at hd
  simp at hd

/-! ## UTF-8 round trip -/

theorem utf8DecodeLoop_nil (fuel : Nat) :
    utf8DecodeLoop fuel [] = some [] := by
  cases fuel <;> rfl

theorem utf8DecodeLoop_cons (fuel b0 : Nat) (rest : List Nat) :
    utf8DecodeLoop (fuel + 1) (b0 :: rest) =
      match utf8DecodeOne (b0 :: rest) with
      | none => none
      | some (v, rest1) =>
        (utf8DecodeLoop fuel rest1).map (fun cs => Char.ofNat v :: cs) := by
  rw [utf8DecodeLoop]

theorem utf8EncodeChar_length (c : Nat) :
    1 ≤ (utf8EncodeChar c).length := by
  unfold utf8EncodeChar
  split
  · simp
  · split
    · simp
    · split <;> simp

theorem utf8DecodeOne_one (b0 : Nat) (rest : List Nat)
    (h1 : b0 < 0x80) :
    utf8DecodeOne (b0 :: rest) = some (b0, rest) := by
  simp only [utf8DecodeOne]
  rw [if_pos h1]

theorem utf8DecodeOne_two (b0 b1 : Nat) (rest : List Nat)
    (h1 : ¬ b0 < 0x80) (h2 : ¬ b0 < 0xC2) (h3 : b0 ≤ 0xDF)
    (hok : utf8Ok2 b1 = true) :
    utf8DecodeOne (b0 :: b1 :: rest) = some (utf8Val2 b0 b1, rest) := by
  simp only [utf8DecodeOne]
  rw [if_neg h1, if_neg h2, if_pos h3]
  simp only [hok, if_true]

theorem utf8DecodeOne_three (b0 b1 b2 : Nat) (rest : List Nat)
    (h1 : ¬ b0 < 0x80) (h2 : ¬ b0 < 0xC2) (h3 : ¬ b0 ≤ 0xDF)
    (h4 : b0 ≤ 0xEF) (hok : utf8Ok3 b0 b1 b2 = true) :
    utf8DecodeOne (b0 :: b1 :: b2 :: rest) =
      some (utf8Val3 b0 b1 b2, rest) := by
  simp only [utf8DecodeOne]
  rw [if_neg h1, if_neg h2, if_neg h3, if_pos h4]
  simp only [hok, if_true]

theorem utf8DecodeOne_four (b0 b1 b2 b3 : Nat) (rest : List Nat)
    (h1 : ¬ b0 < 0x80) (h2 : ¬ b0 < 0xC2) (h3 : ¬ b0 ≤ 0xDF)
    (h4 : ¬ b0 ≤ 0xEF) (h5 : b0 ≤ 0xF4)
    (hok : utf8Ok4 b0 b1 b2 b3 = true) :
    utf8DecodeOne (b0 :: b1 :: b2 :: b3 :: rest) =
      some (utf8Val4 b0 b1 b2 b3, rest) := by
  simp only [utf8DecodeOne]
  rw [if_neg h1, if_neg h2, if_neg h3, if_neg h4, if_pos h5]
  simp only [hok, if_true]

theorem utf8DecodeOne_encodeChar (c : Char) (rest : List Nat) :
    utf8DecodeOne (utf8EncodeChar c.toNat ++ rest) =
      some (c.toNat, rest) := by
  have hval : c.toNat < 0xD800 ∨
      (0xDFFF < c.toNat ∧ c.toNat < 0x110000) := c.valid
  by_cases h1 : c.toNat < 0x80
  · have henc : utf8EncodeChar c.toNat = [c.toNat] := by
      rw [utf8EncodeChar, if_pos h1]
    rw [henc, List.cons_append, List.nil_append,
      utf8DecodeOne_one c.toNat rest h1]
  · by_cases h2 : c.toNat < 0x800
    · have henc : utf8EncodeChar c.toNat =
          [0xC0 + c.toNat / 64, 0x80 + c.toNat % 64] := by
        rw [utf8EncodeChar, if_neg h1, if_pos h2]
      rw [henc]
      simp only [List.cons_append, List.nil_append]
      have hn : utf8Val2 (0xC0 + c.toNat / 64) (0x80 + c.toNat % 64) =
          c.toNat := by
        simp only [utf8Val2]; omega
      rw [utf8DecodeOne_two (0xC0 + c.toNat / 64) (0x80 + c.toNat % 64)
        rest (by omega) (by omega) (by omega)
        (by simp only [utf8Ok2, isCont, Bool.and_eq_true,
              decide_eq_true_eq]
            omega),
        hn]
    · by_cases h3 : c.toNat < 0x10000
      · have henc : utf8EncodeChar c.toNat =
            [0xE0 + c.toNat / 4096, 0x80 + c.toNat / 64 % 64,
             0x80 + c.toNat % 64] := by
          rw [utf8EncodeChar, if_neg h1, if_neg h2, if_pos h3]
        rw [henc]
        simp only [List.cons_append, List.nil_append]
        have hn : utf8Val3 (0xE0 + c.toNat / 4096)
            (0x80 + c.toNat / 64 % 64) (0x80 + c.toNat % 64) =
            c.toNat := by
          simp only [utf8Val3]; omega
        rw [utf8DecodeOne_three (0xE0 + c.toNat / 4096)
          (0x80 + c.toNat / 64 % 64) (0x80 + c.toNat % 64) rest
          (by omega) (by omega) (by omega) (by omega)
          (by simp only [utf8Ok3, isCont, hn, Bool.and_eq_true,
                Bool.not_eq_true', Bool.and_eq_false_iff,
                decide_eq_true_eq, decide_eq_false_iff_not]
              omega),
          hn]
      · have henc : utf8EncodeChar c.toNat =
            [0xF0 + c.toNat / 262144, 0x80 + c.toNat / 4096 % 64,
             0x80 + c.toNat / 64 % 64, 0x80 + c.toNat % 64] := by
          rw [utf8EncodeChar, if_neg h1, if_neg h2, if_neg h3]
        rw [henc]
        simp only [List.cons_append, List.nil_append]
        have hn : utf8Val4 (0xF0 + c.toNat / 262144)
            (0x80 + c.toNat / 4096 % 64) (0x80 + c.toNat / 64 % 64)
            (0x80 + c.toNat % 64) = c.toNat := by
          simp only [utf8Val4]; omega
        rw [utf8DecodeOne_four (0xF0 + c.toNat / 262144)
          (0x80 + c.toNat / 4096 % 64) (0x80 + c.toNat / 64 % 64)
          (0x80 + c.toNat % 64) rest
          (by omega) (by omega) (by omega) (by omega) (by omega)
          (by simp only [utf8Ok4, isCont, hn, Bool.and_eq_true,
                decide_eq_true_eq]
              omega),
          hn]

theorem utf8DecodeLoop_encode (cs : List Char) (fuel : Nat)
    (h : (cs.flatMap (fun c => utf8EncodeChar c.toNat)).length ≤ fuel) :
    utf8DecodeLoop fuel (cs.flatMap (fun c => utf8EncodeChar c.toNat)) =
      some cs := by
  induction cs generalizing fuel with
  | nil => simp only [List.flatMap_nil]; exact utf8DecodeLoop_nil fuel
  | cons c cs ih =>
    rw [List.flatMap_cons] at h ⊢
    rcases henc : utf8EncodeChar c.toNat with _ | ⟨e0, etail⟩
    · have hone := utf8EncodeChar_length c.toNat
      rw [henc] at hone; simp at hone
    · rw [henc] at h
      simp only [List.length_append, List.length_cons] at h
      obtain ⟨g, rfl⟩ : ∃ g, fuel = g + 1 := ⟨fuel - 1, by omega⟩
      rw [List.cons_append, utf8DecodeLoop_cons]
      have hone := utf8DecodeOne_encodeChar c
        (cs.flatMap (fun c => utf8EncodeChar c.toNat))
      rw [henc, List.cons_append] at hone
      rw [hone]
      show (utf8DecodeLoop g
          (cs.flatMap (fun c => utf8EncodeChar c.toNat))).map
          (fun l => Char.ofNat c.toNat :: l) = some (c :: cs)
      rw [ih g (by omega)]
      simp [Char.ofNat_toNat]

/-- Decoding inverts encoding: the staged blob always reads back as
the text it was written from. -/
theorem utf8Decode_encode (s : String) :
    utf8Decode (utf8Encode s) = some s := by
  unfold utf8Decode utf8DecodeChars utf8Encode
  rw [utf8DecodeLoop_encode s.data _ (le_refl _)]
  rfl

/-! ## C2: the staging round trip -/

theorem stagedEntry_path (idx : IndexEntry) (nc : String) :
    (stagedEntry idx nc).path = idx.path := rfl

/-- C2 counterexample: when the staged selection deletes every line,
the file's entry is reset to the last-commit content (`"a\n"`), not
kept at a recoverable state; the index-vs-commit diff of the result is
empty, so unstaging the same selection over its (empty) hunk list
fails with the malformed-selection error, and the entry never returns
to its pre-stage content `"b\n"`. -/
theorem stage_lines_c2_counterexample :
    entryContentBytes stDel "f.txt" = some (utf8Encode "b\n") ∧
    stage_lines noFaults hunksDel stDel "f.txt" false selDel =
      (Except.ok (), stDelAfter) ∧
    entryContentBytes stDelAfter "f.txt" = some (utf8Encode "a\n") ∧
    stage_lines noFaults [] stDelAfter "f.txt" true selDel =
      (Except.error Error.malformedSelection, stDelAfter) ∧
    utf8Encode "a\n" ≠ utf8Encode "b\n" :=
  ⟨rfl, rfl, rfl, rfl, by decide⟩

/-- C2 (amended): for a tracked file whose baseline text joins back to
itself, a successful stage of a selection with non-empty resulting
content is reverted by the unstage call whose hunks are the inverse
image of the staged ones: the path's entry content returns to the
pre-stage bytes. -/
theorem stage_lines_roundtrip_amended
    (hunks : List HunkLines) (st : GitState) (p : String)
    (sel : List DiffLinePosition) (idx : IndexEntry)
    (c0 c1 : String) (st1 : GitState)
    (hne : sel ≠ [])
    (hidx : indexGet st.index p = some idx)
    (hblob : (findBlob idx.id).bind utf8Decode = some c0)
    (hnorm : joinLines (linesOf c0) = c0)
    (hc0 : c0 ≠ "")
    (hsz : (utf8Encode c0).length ≤ 4294967295)
    (hfit : hunksFit (linesOf c0) hunks 0 = true)
    (hnl : ∀ hk ∈ hunks, ∀ l ∈ hk.lines, '\n' ∉ l.content.data)
    (happ : apply_selection sel hunks (linesOf c0) false false =
      Except.ok c1)
    (hc1 : c1 ≠ "")
    (h1 : stage_lines noFaults hunks st p false sel =
      (Except.ok (), st1)) :
    ∃ st2,
      stage_lines noFaults (invHunks sel hunks 0 0) st1 p true sel =
        (Except.ok (), st2) ∧
      entryContentBytes st2 p = some (utf8Encode c0) := by
  obtain ⟨st1', mem1, idx', content, nc, hcase, hhead, hdec, happ', hsz',
    hfin⟩ := stage_lines_ok_inversion noFaults hunks st p false sel st1
      hne h1
  rcases hcase with ⟨hidx', hst1', hmem1⟩ | ⟨hnone, _, _, _, _, _, _⟩
  swap
  · rw [hidx] at hnone
    exact absurd hnone (by simp)
  rw [hidx] at hidx'
  injection hidx' with hidxeq
  subst idx'
  subst st1'
  subst mem1
  have hc : content = c0 := by
    rw [hdec] at hblob
    exact Option.some.inj hblob
  subst content
  have hnceq : nc = c1 := by
    rw [happ'] at happ
    exact Except.ok.inj happ
  subst nc
  rw [if_neg hc1] at hfin
  have hpath : idx.path = p := indexGet_path hidx
  have he1path : (stagedEntry idx c1).path = p := hpath
  obtain ⟨hcov, L1, hcore, hc1join⟩ :=
    apply_selection_ok_inversion sel hunks (linesOf c0) false false c1 happ
  have hnlL1 : ∀ x ∈ L1, '\n' ∉ x.data :=
    applySelectionCore_no_nl sel hunks (linesOf c0) false L1
      (linesOf_no_nl c0) hnl hcore
  have hlines1 : linesOf c1 = L1 := by
    rw [hc1join]
    exact linesOf_joinLines L1 hnlL1
  have hcore2 := applySelectionCore_roundtrip sel hunks (linesOf c0) L1
    hfit hcore
  have hcov2 := selectionCovered_invHunks sel hunks 0 0 hcov
  have happ2 : apply_selection sel (invHunks sel hunks 0 0)
      (linesOf c1) true false = Except.ok c0 := by
    unfold apply_selection
    rw [if_pos hcov2, hlines1, hcore2]
    show Except.ok (joinLines (linesOf c0)) = Except.ok c0
    rw [hnorm]
  have hfb2 : findBlob (stagedEntry idx c1).id = some (utf8Encode c1) :=
    rfl
  have hszlt : ¬ (utf8Encode c0).length > 4294967295 := by omega
  have hrest : stage_lines_rest noFaults (invHunks sel hunks 0 0) st1
      st1.index (stagedEntry idx c1) p true sel =
      (Except.ok (),
       { st1 with
           index := indexAdd st1.index
             (stagedEntry (stagedEntry idx c1) c0) }) := by
    unfold stage_lines_rest
    simp only [noFaults, hfb2, utf8Decode_encode, happ2]
    rw [if_neg hszlt, if_neg hc0]
  have hidx2 : indexGet st1.index p = some (stagedEntry idx c1) := by
    rw [hfin]
    exact indexGet_indexAdd_of_path st.index (stagedEntry idx c1) p he1path
  refine ⟨{ st1 with
      index := indexAdd st1.index
        (stagedEntry (stagedEntry idx c1) c0) }, ?_, ?_⟩
  · have hemp : sel.isEmpty = false := by
      cases sel with
      | nil => exact absurd rfl hne
      | cons a l => rfl
    rw [stage_lines, hemp]
    simp only [Bool.false_eq_true, if_false, noFaults]
    rw [hidx2]
    exact hrest
  · show (indexGet (indexAdd st1.index
        (stagedEntry (stagedEntry idx c1) c0)) p).bind
        (fun e => findBlob e.id) = some (utf8Encode c0)
    rw [indexGet_indexAdd_of_path st1.index
      (stagedEntry (stagedEntry idx c1) c0) p hpath]
    rfl

/-- Witness for the amended C2 round trip at the C1 scenario: after
staging line 2 of the working tree over baseline `"0\n"`, unstaging
the same selection over the inverse hunks restores the entry content
`"0\n"`. -/
theorem stage_lines_roundtrip_amended_witness :
    selC1 ≠ [] ∧
    ∃ st2,
      stage_lines noFaults (invHunks selC1 hunksC1 0 0) stC1After
        "test.txt" true selC1 = (Except.ok (), st2) ∧
      entryContentBytes st2 "test.txt" = some (utf8Encode "0\n") :=
  ⟨by decide,
   stage_lines_roundtrip_amended hunksC1 stC1 "test.txt" selC1
     (commitEntry "test.txt" (utf8Encode "0\n")) "0\n" "0\n1\n" stC1After
     (by decide) (by decide) (by decide) (by decide) (by decide)
     (by decide) (by decide) (by decide) rfl (by decide) rfl⟩
